import Mathlib

/-!
Verification development for the `anki_thai_dictionary` add-on.

We give a shallow embedding of the core modules:

* `thai_language/types.py` — the data model (`EntryRef`, `EntryDefinition`,
  `DictionaryEntry`) and its hand-rolled (de-)serialization machinery
  (`to_dict` / `from_dict`), modelled over a JSON value type `JVal`
  (`json.dumps`/`json.loads` faithfully round-trip JSON values, so cache
  rows are modelled as the JSON values themselves);
* `thai_language/refs.py` — `parse_ref` / `ref_to_string` (Python strings
  are modelled as `List Char`, `int()` and `str()` of integers are modelled
  by `pyStrToInt` / `pyIntToChars`);
* `thai_language/fetch.py` — `parse_entry_url`, the sqlite-backed cache
  (`entries`, `redirects`, `words`, `pronounciations` tables), `_get_entry`
  (network fetch; the HTTP layer is modelled as a function from requested
  id to a response), `get_entry`, `_cache_entry`, `get_super_entry`,
  `_norecurse_get_super_entry` and `lookup_word`;
* `thai_language/utils.py` — the `norecurse` recursion guard;
* `thai_dictionary/note.py` — `NoteFormatter.build_components`.

Stateful code is embedded by explicit state passing (`FetcherState`);
fallible code returns `Except PyExc`; the unbounded recursion of
`get_entry` and `build_components` is made total with an explicit fuel
parameter (fuel exhaustion is marked by a dedicated result distinct
from every Python exception).
-/

/-! ## Data model (`thai_language/types.py`) -/

/-- `DefinitionId = Union[str, Literal["#"]]`. -/
abbrev DefinitionId := String

/-- `DEFAULT_DEFINITION: Literal["#"] = "#"`. -/
def DEFAULT_DEFINITION : DefinitionId := "#"

/-- `EntryId = int`. -/
abbrev EntryId := Int

/-- `EntryRef`: frozen dataclass with value equality. -/
structure EntryRef where
  id : EntryId
  definition : Option DefinitionId := none
deriving DecidableEq

/-- One element of a `ComponentsList`: either an `EntryRef` or the
`SELF_REFERENCE` marker (the literal string `"self"`). -/
inductive Component where
  | selfRef
  | ref (r : EntryRef)
deriving DecidableEq

/-- `EntryDefinition` dataclass (field order as declared in the source,
which is also the `dataclasses.asdict` serialization order). -/
structure EntryDefinition where
  id : DefinitionId
  definition : String
  classes : List String
  super_entry : Option String := none
  is_common : Bool := false
  categories : List (List String) := []
  components : Option (List Component) := none
  classifiers : Option (List EntryRef) := none
  related : Option (List EntryRef) := none
  synonyms : Option (List EntryRef) := none
  image_url : Option String := none
deriving DecidableEq

/-- `DictionaryEntry` dataclass.  The Python `dict` fields
(`pronounciations`, `definitions`) are insertion-ordered with unique keys;
they are modelled as association lists in insertion order. -/
structure DictionaryEntry where
  id : EntryId
  entry : String
  pronounciations : List (String × String)
  definitions : List (DefinitionId × EntryDefinition)
  sound_url : Option String := none
deriving DecidableEq

/-- `REPETITION_CHARACTER = EntryRef(132853)` (from `fetch.py`). -/
def REPETITION_CHARACTER : EntryRef := ⟨132853, none⟩

/-- `DictionaryEntry.first_definition = next(iter(self.definitions.keys()))`;
`none` models the `StopIteration` raised on an empty mapping. -/
def DictionaryEntry.first_definition (e : DictionaryEntry) : Option DefinitionId :=
  (e.definitions.map Prod.fst).head?

/-- Association-list lookup, the model of both Python `dict` indexing and
of a sqlite `SELECT ... WHERE key = ?` on a table with a unique key. -/
def tblLookup {κ α : Type} [DecidableEq κ] : List (κ × α) → κ → Option α
  | [], _ => none
  | (k', v) :: rest, k => if k' = k then some v else tblLookup rest k

/-! ## JSON values and (de-)serialization

`to_dict` composes `dataclasses.asdict` with the definition-list
flattening; `from_dict` re-parses.  `json.dumps`/`json.loads` preserve the
JSON value, so the serialized form is modelled directly as a `JVal`. -/

/-- A JSON value (what `json.loads` of a cache row yields). -/
inductive JVal where
  | null
  | jbool (b : Bool)
  | jint (i : Int)
  | jstr (s : String)
  | jarr (l : List JVal)
  | jobj (l : List (String × JVal))

/-- Error-propagating map over a list (a Python list comprehension whose
body may raise: the first failure aborts the whole construction). -/
def listMapM {α β : Type} (f : α → Option β) : List α → Option (List β)
  | [] => some []
  | x :: xs =>
    match f x with
    | none => none
    | some y => (listMapM f xs).map (y :: ·)

theorem listMapM_cons {α β : Type} (f : α → Option β) (x : α) (xs : List α) :
    listMapM f (x :: xs) =
      match f x with
      | none => none
      | some y => (listMapM f xs).map (y :: ·) := rfl

/-- `dataclasses.asdict` of an `EntryRef`. -/
def refToJ (r : EntryRef) : JVal :=
  .jobj [("id", .jint r.id),
         ("definition", match r.definition with | none => .null | some d => .jstr d)]

/-- Serialization of one components-list element (`"self"` stays a string,
an `EntryRef` becomes a dict). -/
def compToJ : Component → JVal
  | .selfRef => .jstr "self"
  | .ref r => refToJ r

/-- Serialization of an optional string field. -/
def optStrToJ : Option String → JVal
  | none => .null
  | some s => .jstr s

/-- Serialization of an optional list field (`None` → JSON null). -/
def optListToJ {α : Type} (f : α → JVal) : Option (List α) → JVal
  | none => .null
  | some l => .jarr (l.map f)

/-- `dataclasses.asdict` of an `EntryDefinition` (declaration field order). -/
def defToJ (d : EntryDefinition) : JVal :=
  .jobj [("id", .jstr d.id),
         ("definition", .jstr d.definition),
         ("classes", .jarr (d.classes.map .jstr)),
         ("super_entry", optStrToJ d.super_entry),
         ("is_common", .jbool d.is_common),
         ("categories", .jarr (d.categories.map (fun c => .jarr (c.map .jstr)))),
         ("components", optListToJ compToJ d.components),
         ("classifiers", optListToJ refToJ d.classifiers),
         ("related", optListToJ refToJ d.related),
         ("synonyms", optListToJ refToJ d.synonyms),
         ("image_url", optStrToJ d.image_url)]

/-- `DictionaryEntry.to_dict`: `asdict`, then the `definitions` mapping is
replaced by the list of its values. -/
def entryToJ (e : DictionaryEntry) : JVal :=
  .jobj [("id", .jint e.id),
         ("entry", .jstr e.entry),
         ("pronounciations", .jobj (e.pronounciations.map (fun p => (p.1, .jstr p.2)))),
         ("definitions", .jarr (e.definitions.map (fun p => defToJ p.2))),
         ("sound_url", optStrToJ e.sound_url)]

/-- `EntryRef.from_dict` on a deserialized JSON value (the object shape
`asdict` produces; any other shape raises in Python and yields `none` here.
Python dataclasses perform no runtime leaf-type validation, but every value
reaching this code is produced by `asdict`, where the leaf types are as
matched here). -/
def refFromJ : JVal → Option EntryRef
  | .jobj [("id", .jint i), ("definition", dj)] =>
    match dj with
    | .null => some ⟨i, none⟩
    | .jstr s => some ⟨i, some s⟩
    | _ => none
  | _ => none

/-- One components-list element of `_parse_components`:
`SELF_REFERENCE if r == SELF_REFERENCE else EntryRef.from_dict(r)`. -/
def compFromJ : JVal → Option Component
  | .jstr s => if s = "self" then some Component.selfRef else none
  | j => (refFromJ j).map Component.ref

/-- String leaf. -/
def strFromJ : JVal → Option String
  | .jstr s => some s
  | _ => none

/-- Optional-string leaf (JSON null or string). -/
def optStrFromJ : JVal → Option (Option String)
  | .null => some none
  | .jstr s => some (some s)
  | _ => none

/-- `_parse_related_entries(raw)`: `if raw: parse each; else: None` — note
that both `None` and the *empty list* are falsy in Python, so an empty
serialized list deserializes to `None`. -/
def refListOptFromJ : JVal → Option (Option (List EntryRef))
  | .null => some none
  | .jarr [] => some none
  | .jarr l => (listMapM refFromJ l).map some
  | _ => none

/-- `_parse_components(raw)`: same falsy-collapse as
`_parse_related_entries`. -/
def compListOptFromJ : JVal → Option (Option (List Component))
  | .null => some none
  | .jarr [] => some none
  | .jarr l => (listMapM compFromJ l).map some
  | _ => none

/-- Parse of one serialized category path (a JSON array of strings). -/
def catFromJ : JVal → Option (List String)
  | .jarr cc => listMapM strFromJ cc
  | _ => none

/-- String-list leaf. -/
def strListFromJ : JVal → Option (List String)
  | .jarr l => listMapM strFromJ l
  | _ => none

/-- List of category paths. -/
def catsFromJ : JVal → Option (List (List String))
  | .jarr l => listMapM catFromJ l
  | _ => none

/-- Boolean leaf. -/
def boolFromJ : JVal → Option Bool
  | .jbool b => some b
  | _ => none

/-- The field names of a serialized `EntryDefinition`, in `asdict` order. -/
def defFieldNames : List String :=
  ["id", "definition", "classes", "super_entry", "is_common", "categories",
   "components", "classifiers", "related", "synonyms", "image_url"]

/-- Parse the eleven field values of a serialized `EntryDefinition`
(in `asdict` field order). -/
def defFromFields : List JVal → Option EntryDefinition
  | [idj, dfj, clsj, supj, icj, catsj, compsj, clfj, relj, synj, imgj] => do
    let i ← strFromJ idj
    let df ← strFromJ dfj
    let classes ← strListFromJ clsj
    let sup ← optStrFromJ supj
    let ic ← boolFromJ icj
    let categories ← catsFromJ catsj
    let comps ← compListOptFromJ compsj
    let clf ← refListOptFromJ clfj
    let rel ← refListOptFromJ relj
    let syn ← refListOptFromJ synj
    let img ← optStrFromJ imgj
    some ⟨i, df, classes, sup, ic, categories, comps, clf, rel, syn, img⟩
  | _ => none

/-- `EntryDefinition.from_dict` applied to a serialized definition (the
exact key set written by `asdict`, required by the `**nvals` call; the
serialized form always carries the keys in declaration order). -/
def defFromJ : JVal → Option EntryDefinition
  | .jobj kvs =>
    if kvs.map Prod.fst = defFieldNames then defFromFields (kvs.map Prod.snd) else none
  | _ => none

/-- Insertion into a Python `dict` modelled as an association list:
an existing key keeps its position and gets the new value. -/
def dictInsert {κ α : Type} [DecidableEq κ] (k : κ) (v : α) : List (κ × α) → List (κ × α)
  | [] => [(k, v)]
  | (k', v') :: rest => if k' = k then (k', v) :: rest else (k', v') :: dictInsert k v rest

/-- Building a Python `dict` from a sequence of key/value pairs
(dict-comprehension semantics: a later duplicate key overwrites). -/
def dictOfList {κ α : Type} [DecidableEq κ] (l : List (κ × α)) : List (κ × α) :=
  l.foldl (fun acc p => dictInsert p.1 p.2 acc) []

/-- Parse of one serialized pronunciation pair. -/
def pronFromJ (p : String × JVal) : Option (String × String) :=
  (strFromJ p.2).map (fun v => (p.1, v))

/-- `DictionaryEntry.from_dict` applied to a serialized entry: the
definitions mapping is rebuilt keyed by each definition's own `id` field
(`{(d := EntryDefinition.from_dict(rd)).id: d for rd in ds}`). -/
def entryFromJ : JVal → Option DictionaryEntry
  | .jobj [("id", .jint i), ("entry", .jstr w), ("pronounciations", .jobj prs),
           ("definitions", .jarr ds), ("sound_url", sndj)] => do
    let prons ← listMapM pronFromJ prs
    let defs ← listMapM defFromJ ds
    let snd ← optStrFromJ sndj
    some ⟨i, w, prons, dictOfList (defs.map (fun d => (d.id, d))), snd⟩
  | _ => none

/-! ### Round-trip lemmas -/

theorem refFromJ_refToJ (r : EntryRef) : refFromJ (refToJ r) = some r := by
  cases r with
  | mk i d => cases d <;> simp [refToJ, refFromJ]

theorem compFromJ_compToJ (c : Component) : compFromJ (compToJ c) = some c := by
  cases c with
  | selfRef => simp [compToJ, compFromJ]
  | ref r =>
    cases r with
    | mk i d => cases d <;> simp [compToJ, refToJ, compFromJ, refFromJ]

theorem listMapM_strFromJ (l : List String) :
    listMapM strFromJ (l.map JVal.jstr) = some l := by
  induction l with
  | nil => rfl
  | cons x xs ih => simp [listMapM, strFromJ, ih]

theorem listMapM_refFromJ (l : List EntryRef) :
    listMapM refFromJ (l.map refToJ) = some l := by
  induction l with
  | nil => rfl
  | cons x xs ih => simp [listMapM, refFromJ_refToJ, ih]

theorem listMapM_compFromJ (l : List Component) :
    listMapM compFromJ (l.map compToJ) = some l := by
  induction l with
  | nil => rfl
  | cons x xs ih => simp [listMapM, compFromJ_compToJ, ih]

theorem refListOptFromJ_optListToJ (o : Option (List EntryRef)) (h : o ≠ some []) :
    refListOptFromJ (optListToJ refToJ o) = some o := by
  match o with
  | none => rfl
  | some [] => exact absurd rfl h
  | some (x :: xs) =>
    simp [optListToJ, refListOptFromJ, listMapM, refFromJ_refToJ, listMapM_refFromJ]

theorem compListOptFromJ_optListToJ (o : Option (List Component)) (h : o ≠ some []) :
    compListOptFromJ (optListToJ compToJ o) = some o := by
  match o with
  | none => rfl
  | some [] => exact absurd rfl h
  | some (x :: xs) =>
    simp [optListToJ, compListOptFromJ, listMapM, compFromJ_compToJ, listMapM_compFromJ]

theorem optStrFromJ_optStrToJ (o : Option String) : optStrFromJ (optStrToJ o) = some o := by
  cases o <;> rfl

theorem listMapM_catFromJ (l : List (List String)) :
    listMapM catFromJ (l.map (fun c => JVal.jarr (c.map JVal.jstr))) = some l := by
  induction l with
  | nil => rfl
  | cons x xs ih => simp [listMapM, catFromJ, listMapM_strFromJ, ih]

set_option maxHeartbeats 1000000 in
/-- A serialized `EntryDefinition` deserializes back, provided none of its
optional reference-list fields is the (falsy) empty list. -/
theorem defFromJ_defToJ (d : EntryDefinition)
    (hc : d.components ≠ some []) (hcl : d.classifiers ≠ some [])
    (hr : d.related ≠ some []) (hs : d.synonyms ≠ some []) :
    defFromJ (defToJ d) = some d := by
  cases d with
  | mk i df cls sup ic cats comps clf rel syn img =>
    simp only at hc hcl hr hs
    simp only [defToJ, defFromJ, List.map_cons, List.map_nil]
    have hng : (["id", "definition", "classes", "super_entry", "is_common", "categories",
        "components", "classifiers", "related", "synonyms", "image_url"] : List String) =
        defFieldNames := rfl
    rw [if_pos hng]
    simp only [defFromFields, strFromJ, strListFromJ, catsFromJ, boolFromJ]
    rw [listMapM_strFromJ, listMapM_catFromJ, optStrFromJ_optStrToJ, optStrFromJ_optStrToJ,
      compListOptFromJ_optListToJ _ hc, refListOptFromJ_optListToJ _ hcl,
      refListOptFromJ_optListToJ _ hr, refListOptFromJ_optListToJ _ hs]
    rfl

theorem dictInsert_append {κ α : Type} [DecidableEq κ] (k : κ) (v : α)
    (acc : List (κ × α)) (hk : ∀ p ∈ acc, p.1 ≠ k) :
    dictInsert k v acc = acc ++ [(k, v)] := by
  induction acc with
  | nil => rfl
  | cons q rest ih =>
    have hq : q.1 ≠ k := hk q (by simp)
    cases q with
    | mk qk qv =>
      simp only [dictInsert, if_neg hq, List.cons_append]
      rw [ih (fun p hp => hk p (by simp [hp]))]

theorem dictOfList_eq_self {κ α : Type} [DecidableEq κ] (l : List (κ × α))
    (h : (l.map Prod.fst).Nodup) : dictOfList l = l := by
  suffices H : ∀ (l acc : List (κ × α)), ((acc ++ l).map Prod.fst).Nodup →
      List.foldl (fun a p => dictInsert p.1 p.2 a) acc l = acc ++ l by
    simpa using H l [] (by simpa using h)
  intro l
  induction l with
  | nil => intro acc _; simp
  | cons q rest ih =>
    intro acc hnd
    have hnd' : (acc.map Prod.fst ++ (q.1 :: rest.map Prod.fst)).Nodup := by
      simpa using hnd
    have hdisj := List.disjoint_of_nodup_append hnd'
    have hq : ∀ p ∈ acc, p.1 ≠ q.1 := by
      intro p hp heq
      exact hdisj (List.mem_map_of_mem Prod.fst hp) (by simp [heq])
    simp only [List.foldl_cons]
    rw [dictInsert_append q.1 q.2 acc hq]
    have := ih (acc ++ [(q.1, q.2)]) (by simpa using hnd)
    simpa using this

theorem listMapM_pronFromJ (l : List (String × String)) :
    listMapM pronFromJ (l.map (fun p => (p.1, JVal.jstr p.2))) = some l := by
  induction l with
  | nil => rfl
  | cons x xs ih => simp [listMapM, pronFromJ, strFromJ, ih]

/-- Well-formedness of a `DictionaryEntry` as the Python code constructs
them: every definition's `id` field equals its key in the mapping, the
mapping's keys are distinct (a Python `dict` invariant), and no optional
reference-list field is an empty list. -/
def WellFormedEntry (e : DictionaryEntry) : Prop :=
  (∀ p ∈ e.definitions, p.2.id = p.1) ∧
  (e.definitions.map Prod.fst).Nodup ∧
  (∀ p ∈ e.definitions, p.2.components ≠ some [] ∧ p.2.classifiers ≠ some [] ∧
    p.2.related ≠ some [] ∧ p.2.synonyms ≠ some [])

instance (e : DictionaryEntry) : Decidable (WellFormedEntry e) := by
  unfold WellFormedEntry
  infer_instance

theorem entryFromJ_entryToJ (e : DictionaryEntry) (h : WellFormedEntry e) :
    entryFromJ (entryToJ e) = some e := by
  obtain ⟨hids, hnd, hlists⟩ := h
  cases e with
  | mk i w prons defs snd =>
    simp only at hids hnd hlists
    have hdefs : listMapM defFromJ (defs.map (fun p => defToJ p.2)) = some (defs.map Prod.snd) := by
      clear hnd
      induction defs with
      | nil => rfl
      | cons q rest ih =>
        have hq := hlists q (List.mem_cons_self q rest)
        simp only [List.map_cons, listMapM,
          defFromJ_defToJ q.2 hq.1 hq.2.1 hq.2.2.1 hq.2.2.2]
        rw [ih (fun p hp => hids p (List.mem_cons_of_mem q hp))
          (fun p hp => hlists p (List.mem_cons_of_mem q hp))]
        rfl
    have hkeys : (defs.map Prod.snd).map (fun d => (d.id, d)) = defs := by
      clear hnd hdefs
      induction defs with
      | nil => rfl
      | cons q rest ih =>
        simp only [List.map_cons]
        rw [hids q (List.mem_cons_self q rest),
          ih (fun p hp => hids p (List.mem_cons_of_mem q hp))
            (fun p hp => hlists p (List.mem_cons_of_mem q hp))]
    simp [entryToJ, entryFromJ, listMapM_pronFromJ, hdefs, optStrFromJ_optStrToJ,
      hkeys, dictOfList_eq_self defs hnd]

/-! ### C5 -/

/-- A definition whose `id` differs from its mapping key and whose
`components`/`classifiers` fields are empty lists: both properties are
destroyed by a serialization round trip. -/
def c5BadDefn : EntryDefinition :=
  { id := "y", definition := "word", classes := [],
    components := some [], classifiers := some [] }

/-- A concrete `DictionaryEntry` on which `from_dict ∘ to_dict` is not the
identity. -/
def c5BadEntry : DictionaryEntry :=
  { id := 1, entry := "w", pronounciations := [], definitions := [("x", c5BadDefn)] }

/-- C5 counterexample: `DictionaryEntry.from_dict(e.to_dict())` is *not*
`e` for every `e`.  For `c5BadEntry` the round trip rekeys the definition
by its own `id` field (`"x"` ↦ `"y"`) and collapses the empty
`components`/`classifiers` lists to `None` (they are falsy in
`_parse_components`/`_parse_related_entries`). -/
theorem c5_roundtrip_counterexample :
    entryFromJ (entryToJ c5BadEntry) ≠ some c5BadEntry := by
  decide

/-- C5 (corrected): for every `DictionaryEntry` that satisfies the
well-formedness invariants the code itself maintains — each nested
definition's `id` equals its key, keys are distinct, and no optional
reference-list field is the empty list — deserializing the serialized form
(`from_dict` after `to_dict`, the JSON dump/load being a faithful JSON
round trip) yields the original value, including `components` lists mixing
`EntryRef` values and self-reference markers. -/
theorem c5_roundtrip (e : DictionaryEntry) (h : WellFormedEntry e) :
    entryFromJ (entryToJ e) = some e :=
  entryFromJ_entryToJ e h

/-- A well-formed definition carrying a components list that mixes an
`EntryRef` and the self-reference marker. -/
def c5GoodDefn : EntryDefinition :=
  { id := "1", definition := "d1", classes := ["noun"],
    super_entry := some "abab",
    categories := [["Cat", "Sub"]],
    components := some [Component.selfRef, Component.ref ⟨9, some "2"⟩] }

/-- A well-formed entry containing `c5GoodDefn`. -/
def c5GoodEntry : DictionaryEntry :=
  { id := 7, entry := "ab", pronounciations := [("Paiboon", "a b")],
    definitions := [("1", c5GoodDefn)],
    sound_url := some "/s.mp3" }

/-- C5 witness: the corrected round-trip theorem applied to a concrete
well-formed entry with a mixed components list. -/
theorem c5_roundtrip_witness :
    WellFormedEntry c5GoodEntry ∧ entryFromJ (entryToJ c5GoodEntry) = some c5GoodEntry :=
  ⟨by decide, c5_roundtrip c5GoodEntry (by decide)⟩

/-! ## Reference parsing (`thai_language/refs.py` and `parse_entry_url`)

Python strings are modelled as `List Char`.  `int()` (base 10) and `str()`
of an integer are modelled by `pyStrToInt` / `pyIntToChars`. -/

/-- ASCII whitespace stripped by Python `int()` (Python also strips other
Unicode whitespace; no analyzed input contains any). -/
def pyIsSpace (c : Char) : Bool :=
  c = ' ' ∨ c = '\t' ∨ c = '\n' ∨ c = '\r' ∨ c = '\x0b' ∨ c = '\x0c'

/-- Leading/trailing whitespace strip. -/
def pyTrim (l : List Char) : List Char :=
  ((l.dropWhile pyIsSpace).reverse.dropWhile pyIsSpace).reverse

/-- Numeric value of a decimal digit character. -/
def pyDigitVal (c : Char) : Nat := c.toNat - 48

/-- Value of a most-significant-first digit string. -/
def pyDigitsVal (l : List Char) : Nat :=
  l.foldl (fun a c => a * 10 + pyDigitVal c) 0

/-- Continuation of `pyUDigits`: digits with single underscores allowed
only between digits (Python numeric-literal grouping accepted by `int()`);
the underscores are dropped from the returned digit characters. -/
def pyUDigitsGo : List Char → Option (List Char)
  | [] => some []
  | c :: rest =>
    if c = '_' then
      if ((rest.head?.map Char.isDigit).getD false) then pyUDigitsGo rest else none
    else if c.isDigit then (pyUDigitsGo rest).map (c :: ·) else none

/-- The digit part accepted by Python `int()` after the optional sign:
at least one digit, underscores only between digits; returns the digit
characters with underscores removed. -/
def pyUDigits : List Char → Option (List Char)
  | [] => none
  | c :: rest => if c.isDigit then (pyUDigitsGo rest).map (c :: ·) else none

/-- The optional sign and digit part accepted by Python `int()` after
whitespace stripping. -/
def pySignedDigits : List Char → Option Int
  | [] => none
  | c :: rest =>
    if c = '-' then (pyUDigits rest).map (fun ds => -((pyDigitsVal ds : Int)))
    else if c = '+' then (pyUDigits rest).map (fun ds => ((pyDigitsVal ds : Int)))
    else (pyUDigits (c :: rest)).map (fun ds => ((pyDigitsVal ds : Int)))

/-- Python `int(s)` for base 10: optional surrounding whitespace, optional
sign, then digits; `none` models the `ValueError`. -/
def pyStrToInt (l : List Char) : Option Int :=
  pySignedDigits (pyTrim l)

/-- The character for a decimal digit value. -/
def digitChar : Nat → Char
  | 0 => '0' | 1 => '1' | 2 => '2' | 3 => '3' | 4 => '4'
  | 5 => '5' | 6 => '6' | 7 => '7' | 8 => '8' | _ => '9'

/-- Decimal rendering of a natural number (most significant digit first). -/
def natToChars (n : Nat) : List Char :=
  if n = 0 then ['0'] else ((Nat.digits 10 n).map digitChar).reverse

/-- Python `str()` of an integer. -/
def pyIntToChars (i : Int) : List Char :=
  if i < 0 then '-' :: natToChars i.natAbs else natToChars i.natAbs

/-- `raw_ref.split("#", maxsplit=1)`: the part before the first `#` and,
when a `#` is present, everything after it. -/
def splitHash1 : List Char → List Char × Option (List Char)
  | [] => ([], none)
  | c :: rest =>
    if c = '#' then ([], some rest)
    else
      let p := splitHash1 rest
      (c :: p.1, p.2)

/-- `parse_ref` (`refs.py`): `"<int>"` or `"<int>#<definition>"`; the
`ValueError` from `int()` is caught and yields `None`. -/
def parse_ref (raw_ref : List Char) : Option EntryRef :=
  let p := splitHash1 raw_ref
  (pyStrToInt p.1).map (fun i => ⟨i, p.2.map (fun d => String.mk d)⟩)

/-- `ref_to_string` (`refs.py`). -/
def ref_to_string (ref : EntryRef) : List Char :=
  match ref.definition with
  | none => pyIntToChars ref.id
  | some d => pyIntToChars ref.id ++ '#' :: d.data

/-- The optional host part of `_ENTRY_URL_REGEX`
(`(?:(?:https?://)?(?:www\.)?thai-language\.com)?`): greedy, with the
alternatives distinguished by their first character, so matching is
deterministic; if the host group fails, the original string is kept. -/
def stripUrlHost (l : List Char) : List Char :=
  let s1 := if "http://".data.isPrefixOf l then l.drop 7
            else if "https://".data.isPrefixOf l then l.drop 8
            else l
  let s2 := if "www.".data.isPrefixOf s1 then s1.drop 4 else s1
  if "thai-language.com".data.isPrefixOf s2 then s2.drop 17 else l

/-- The `(?:#def(?P<def>[0-9]+[^?]*))?` group of `_ENTRY_URL_REGEX`,
matched against the entire remaining input (so the `[^?]*` must reach the
end: a `?` anywhere in the tail kills the match).  The group value starts
with at least one digit. -/
def matchDefFragment (l : List Char) : Option (List Char) :=
  if "#def".data.isPrefixOf l then
    let t := l.drop 4
    let ds := t.takeWhile Char.isDigit
    let rest := t.drop ds.length
    if ds ≠ [] ∧ rest.all (fun c => c ≠ '?') then some (ds ++ rest) else none
  else none

/-- `parse_entry_url` (`fetch.py`): full match of `_ENTRY_URL_REGEX`,
with the requested-entry fallback `self_id` for fragment-only references.
Both regex groups are optional, so the empty string matches with no id. -/
def parse_entry_url (url : List Char) (self_id : Option EntryId) : Option EntryRef :=
  let afterHost := stripUrlHost url
  let part1 : Option (EntryId × List Char) :=
    if "/id/".data.isPrefixOf afterHost then
      let t := afterHost.drop 4
      let ds := t.takeWhile Char.isDigit
      if ds = [] then none else some (((pyDigitsVal ds : Int)), t.drop ds.length)
    else none
  match part1 with
  | some (i, []) => some ⟨i, none⟩
  | some (i, rest) => (matchDefFragment rest).map (fun d => ⟨i, some (String.mk d)⟩)
  | none =>
    if url = [] then self_id.map (fun i => ⟨i, none⟩)
    else (matchDefFragment url).bind (fun d => self_id.map (fun i => ⟨i, some (String.mk d)⟩))

/-! ### Integer print/parse round trip -/

theorem digitChar_isDigit {d : Nat} (h : d < 10) : (digitChar d).isDigit = true := by
  interval_cases d <;> decide

theorem pyDigitVal_digitChar {d : Nat} (h : d < 10) : pyDigitVal (digitChar d) = d := by
  interval_cases d <;> decide

theorem natToChars_digits {n : Nat} : ∀ c ∈ natToChars n, c.isDigit = true := by
  intro c hc
  unfold natToChars at hc
  by_cases h : n = 0
  · simp [h] at hc
    simp [hc]
  · rw [if_neg h] at hc
    rw [List.mem_reverse] at hc
    obtain ⟨d, hd, rfl⟩ := List.mem_map.mp hc
    exact digitChar_isDigit (Nat.digits_lt_base (by norm_num) hd)

theorem natToChars_ne_nil {n : Nat} : natToChars n ≠ [] := by
  unfold natToChars
  by_cases h : n = 0
  · simp [h]
  · rw [if_neg h]
    simp [h, Nat.digits_ne_nil_iff_ne_zero.mpr h]

theorem isDigit_ne {c : Char} (h : c.isDigit = true) :
    c ≠ '#' ∧ c ≠ '-' ∧ c ≠ '+' ∧ c ≠ '_' ∧ pyIsSpace c = false := by
  refine ⟨?_, ?_, ?_, ?_, ?_⟩
  · rintro rfl; exact absurd h (by decide)
  · rintro rfl; exact absurd h (by decide)
  · rintro rfl; exact absurd h (by decide)
  · rintro rfl; exact absurd h (by decide)
  · unfold pyIsSpace
    rw [decide_eq_false_iff_not]
    rintro (rfl | rfl | rfl | rfl | rfl | rfl) <;> exact absurd h (by decide)

theorem dropWhile_eq_self {l : List Char} (h : ∀ c ∈ l, pyIsSpace c = false) :
    l.dropWhile pyIsSpace = l := by
  cases l with
  | nil => rfl
  | cons c rest => simp [List.dropWhile_cons, h c (List.mem_cons_self c rest)]

theorem pyTrim_eq_self {l : List Char} (h : ∀ c ∈ l, pyIsSpace c = false) :
    pyTrim l = l := by
  unfold pyTrim
  rw [dropWhile_eq_self h, dropWhile_eq_self (fun c hc => h c (List.mem_reverse.mp hc)),
    List.reverse_reverse]

theorem pyUDigitsGo_digits {l : List Char} (h : ∀ c ∈ l, c.isDigit = true) :
    pyUDigitsGo l = some l := by
  induction l with
  | nil => rfl
  | cons c rest ih =>
    have hc := h c (List.mem_cons_self c rest)
    simp only [pyUDigitsGo]
    rw [if_neg (isDigit_ne hc).2.2.2.1, if_pos hc,
      ih (fun x hx => h x (List.mem_cons_of_mem c hx))]
    rfl

theorem pyUDigits_digits {l : List Char} (hne : l ≠ []) (h : ∀ c ∈ l, c.isDigit = true) :
    pyUDigits l = some l := by
  cases l with
  | nil => exact absurd rfl hne
  | cons c rest =>
    simp only [pyUDigits]
    rw [if_pos (h c (List.mem_cons_self c rest)),
      pyUDigitsGo_digits (fun x hx => h x (List.mem_cons_of_mem c hx))]
    rfl

theorem foldl_digitChar {L : List Nat} (hL : ∀ d ∈ L, d < 10) (a : Nat) :
    List.foldl (fun x c => x * 10 + pyDigitVal c) a (L.map digitChar) =
      List.foldl (fun x d => x * 10 + d) a L := by
  induction L generalizing a with
  | nil => rfl
  | cons d rest ih =>
    simp only [List.map_cons, List.foldl_cons]
    rw [pyDigitVal_digitChar (hL d (List.mem_cons_self d rest))]
    exact ih (fun x hx => hL x (List.mem_cons_of_mem d hx)) _

theorem foldl_reverse_ofDigits (L : List Nat) (a : Nat) :
    List.foldl (fun x d => x * 10 + d) a L.reverse =
      a * 10 ^ L.length + Nat.ofDigits 10 L := by
  induction L generalizing a with
  | nil => simp
  | cons d rest ih =>
    simp only [List.reverse_cons, List.foldl_append, List.foldl_cons, List.foldl_nil,
      List.length_cons, pow_succ]
    rw [ih a, Nat.ofDigits_cons]
    ring

theorem pyDigitsVal_natToChars (n : Nat) : pyDigitsVal (natToChars n) = n := by
  unfold natToChars
  by_cases h : n = 0
  · simp [h, pyDigitsVal, pyDigitVal]
  · rw [if_neg h]
    unfold pyDigitsVal
    rw [← List.map_reverse, foldl_digitChar
      (fun d hd => Nat.digits_lt_base (by norm_num) (List.mem_reverse.mp hd)),
      foldl_reverse_ofDigits, Nat.ofDigits_digits]
    simp

theorem pyStrToInt_pyIntToChars (i : Int) : pyStrToInt (pyIntToChars i) = some i := by
  by_cases hneg : i < 0
  · unfold pyIntToChars
    rw [if_pos hneg]
    unfold pyStrToInt
    rw [pyTrim_eq_self ?side]
    case side =>
      intro c hc
      rcases List.mem_cons.mp hc with rfl | hc
      · decide
      · exact (isDigit_ne (natToChars_digits c hc)).2.2.2.2
    simp only [pySignedDigits, eq_self_iff_true, if_true]
    rw [pyUDigits_digits natToChars_ne_nil (fun c hc => natToChars_digits c hc)]
    simp only [Option.map_some']
    rw [pyDigitsVal_natToChars]
    congr 1
    omega
  · unfold pyIntToChars
    rw [if_neg hneg]
    unfold pyStrToInt
    rw [pyTrim_eq_self (fun c hc => (isDigit_ne (natToChars_digits c hc)).2.2.2.2)]
    obtain ⟨c, rest, hcr⟩ : ∃ c rest, natToChars i.natAbs = c :: rest := by
      cases hh : natToChars i.natAbs with
      | nil => exact absurd hh natToChars_ne_nil
      | cons c rest => exact ⟨c, rest, rfl⟩
    rw [hcr]
    have hc : c.isDigit = true := natToChars_digits c (by rw [hcr]; exact List.mem_cons_self c rest)
    simp only [pySignedDigits]
    rw [if_neg (isDigit_ne hc).2.1, if_neg (isDigit_ne hc).2.2.1, ← hcr,
      pyUDigits_digits natToChars_ne_nil (fun x hx => natToChars_digits x hx)]
    simp only [Option.map_some']
    rw [pyDigitsVal_natToChars]
    congr 1
    omega

theorem splitHash1_no_hash {l : List Char} (h : ∀ c ∈ l, c ≠ '#') :
    splitHash1 l = (l, none) := by
  induction l with
  | nil => rfl
  | cons c rest ih =>
    simp only [splitHash1]
    rw [if_neg (h c (List.mem_cons_self c rest)), ih (fun x hx => h x (List.mem_cons_of_mem c hx))]

theorem splitHash1_append {a d : List Char} (h : ∀ c ∈ a, c ≠ '#') :
    splitHash1 (a ++ '#' :: d) = (a, some d) := by
  induction a with
  | nil => simp [splitHash1]
  | cons c rest ih =>
    simp only [List.cons_append, splitHash1, List.append_eq]
    rw [if_neg (h c (List.mem_cons_self c rest)), ih (fun x hx => h x (List.mem_cons_of_mem c hx))]

theorem pyIntToChars_no_hash (i : Int) : ∀ c ∈ pyIntToChars i, c ≠ '#' := by
  intro c hc
  unfold pyIntToChars at hc
  by_cases hneg : i < 0
  · rw [if_pos hneg] at hc
    rcases List.mem_cons.mp hc with rfl | hc
    · decide
    · exact (isDigit_ne (natToChars_digits c hc)).1
  · rw [if_neg hneg] at hc
    exact (isDigit_ne (natToChars_digits c hc)).1

/-- C10: rendering an `EntryRef` with `ref_to_string` and parsing it back
with `parse_ref` is the identity, for every integer id and every
definition, `None` or an arbitrary string (even one containing `#`, since
the split uses `maxsplit=1`). -/
theorem c10_ref_roundtrip (r : EntryRef) : parse_ref (ref_to_string r) = some r := by
  cases r with
  | mk i d =>
    cases d with
    | none =>
      unfold ref_to_string parse_ref
      simp only
      rw [splitHash1_no_hash (pyIntToChars_no_hash i)]
      simp [pyStrToInt_pyIntToChars]
    | some d =>
      unfold ref_to_string parse_ref
      simp only
      rw [splitHash1_append (pyIntToChars_no_hash i)]
      simp [pyStrToInt_pyIntToChars]

/-! ### C7 -/

/-- C7 counterexample: the spec example
`"http://thai-language.com/id/123#defabc"` does *not* parse to
`EntryRef(123, "abc")` — the regex fragment group `#def(?P<def>[0-9]+[^?]*)`
requires the definition to begin with a digit, so the full match fails and
`parse_entry_url` returns `None`. -/
theorem c7_parse_counterexample :
    parse_entry_url "http://thai-language.com/id/123#defabc".data none ≠
      some ⟨123, some "abc"⟩ ∧
    parse_entry_url "http://thai-language.com/id/123#defabc".data none = none := by
  constructor
  · decide
  · decide

/-- C7 (corrected): reference parsing accepts the documented shapes without
raising — `"123"` ↦ `EntryRef(123, None)`, `"123#abc"` ↦
`EntryRef(123, "abc")`, and a full URL parses when its fragment is absent
or begins with a digit (`".../id/123"` ↦ `EntryRef(123, None)`,
`".../id/123#def4abc"` ↦ `EntryRef(123, "4abc")`); but a URL whose
fragment's definition part does not start with a digit, such as
`".../id/123#defabc"`, is *no match* (`None`).  Invalid inputs (`""`,
`"abc"`, malformed URLs) yield no match from `parse_ref` and
`parse_entry_url` rather than an exception (both are total). -/
theorem c7_parse_shapes :
    parse_ref "123".data = some ⟨123, none⟩ ∧
    parse_ref "123#abc".data = some ⟨123, some "abc"⟩ ∧
    parse_entry_url "http://thai-language.com/id/123".data none = some ⟨123, none⟩ ∧
    parse_entry_url "http://thai-language.com/id/123#def4abc".data none =
      some ⟨123, some "4abc"⟩ ∧
    parse_entry_url "http://thai-language.com/id/123#defabc".data none = none ∧
    parse_ref "".data = none ∧
    parse_ref "abc".data = none ∧
    parse_entry_url "abc".data none = none ∧
    parse_entry_url "http://example.com/id/5".data none = none := by
  refine ⟨?_, ?_, ?_, ?_, ?_, ?_, ?_, ?_, ?_⟩ <;> decide

/-! ## The fetcher (`thai_language/fetch.py`) and the recursion guard
(`thai_language/utils.py`)

The sqlite cache is modelled as association lists (the `AUTOINCREMENT id`
columns of the index tables play no role and are omitted); failed
`INSERT`s on a key/uniqueness violation are caught and logged in the
source, so they leave the state unchanged here.  `entryInsertLog` is ghost
instrumentation: it records each successful `INSERT INTO entries` and has
no influence on behaviour. -/

/-- The exception classes raised by the embedded code.  `noFuel` is a
model artifact marking recursion-fuel exhaustion, distinct from every
Python exception. -/
inductive PyExc where
  | entryNotFound
  | httpStatusError
  | runtimeError (cause : PyExc)
  | runtimeErrorNoCause
  | keyError
  | assertionError
  | recursionError
  | noFuel
deriving DecidableEq

/-- The five cache tables of `DictionaryFetcher.__init__` (media omitted;
no analyzed claim touches it).  NOTE: the schema declares
`FOREIGN KEY ... ON DELETE CASCADE`, but the `sqlite3.connect` call never
executes `PRAGMA foreign_keys = ON`, so foreign keys — and their cascades —
are disabled at runtime; the model therefore has no cascade behaviour. -/
structure CacheDB where
  entries : List (EntryId × JVal)
  redirects : List (EntryId × EntryId)
  words : List (String × EntryId × Option DefinitionId)
  pronounciations : List (String × String × EntryId × Option DefinitionId)
  entryInsertLog : List EntryId

/-- The empty cache (a fresh database file). -/
def emptyDB : CacheDB := ⟨[], [], [], [], []⟩

/-- `INSERT INTO entries (id, data) VALUES (?, ?)`: `id` is the primary
key, so an existing row makes the insert fail (caught and logged). -/
def insertEntryRow (db : CacheDB) (i : EntryId) (v : JVal) : CacheDB :=
  match tblLookup db.entries i with
  | some _ => db
  | none =>
    { db with
      entries := db.entries ++ [(i, v)],
      entryInsertLog := db.entryInsertLog ++ [i] }

/-- `INSERT INTO redirects (id, entry_id) VALUES (?, ?)` (primary key `id`). -/
def insertRedirectRow (db : CacheDB) (i target : EntryId) : CacheDB :=
  match tblLookup db.redirects i with
  | some _ => db
  | none => { db with redirects := db.redirects ++ [(i, target)] }

/-- `INSERT INTO words (word, entry_id, definition_id)` with
`UNIQUE (entry_id, definition_id)`. -/
def insertWordRow (db : CacheDB) (w : String) (i : EntryId) (d : Option DefinitionId) : CacheDB :=
  if db.words.any (fun r => r.2.1 = i ∧ r.2.2 = d) then db
  else { db with words := db.words ++ [(w, i, d)] }

/-- `INSERT INTO pronounciations (pronounciation, type, entry_id,
definition_id)` with `UNIQUE (entry_id, definition_id, type)`. -/
def insertPronRow (db : CacheDB) (p ty : String) (i : EntryId) (d : Option DefinitionId) : CacheDB :=
  if db.pronounciations.any (fun r => r.2.2.1 = i ∧ r.2.2.2 = d ∧ r.2.1 = ty) then db
  else { db with pronounciations := db.pronounciations ++ [(p, ty, i, d)] }

/-- `DELETE FROM entries WHERE id = ?`.  Only the `entries` row goes away:
the connection never enables `PRAGMA foreign_keys`, so the declared
`ON DELETE CASCADE` clauses do not fire and dependent redirect/word/
pronunciation rows survive. -/
def deleteEntryRow (db : CacheDB) (i : EntryId) : CacheDB :=
  { db with entries := db.entries.filter (fun p => p.1 ≠ i) }

/-- `unicodedata.normalize("NFC", s)`: modelled as the identity — every
string the analyzed claims feed through it is already NFC-normalized
(ASCII); full Unicode normalization is out of scope. -/
def nfcNormalize (s : String) : String := s

/-- `str.lower()` (ASCII case only; the analyzed inputs contain no other
cased characters). -/
def pyLower (s : String) : String := String.mk (s.data.map Char.toLower)

/-- `DictionaryFetcher._cache_entry`: one pronunciation-index row per
scheme and one word-index row, each normalized, for the given reference. -/
def cache_entry (db : CacheDB) (ref : EntryRef) (e : DictionaryEntry) : CacheDB :=
  let db1 := e.pronounciations.foldl
    (fun db p => insertPronRow db (nfcNormalize p.2) p.1 ref.id ref.definition) db
  insertWordRow db1 (nfcNormalize e.entry) ref.id ref.definition

/-- The outcome of the HTTP GET for an entry page: a status code and, for
a usable page, the result of the soup/canonical-link/header/pronunciation/
definition extraction pipeline (`none` models a pipeline failure). -/
structure HttpResponse where
  status : Nat
  parsed : Option DictionaryEntry

/-- The site, as a function from requested id to response. -/
abbrev Server := EntryId → HttpResponse

/-- `DictionaryFetcher._get_entry`: 404 raises `EntryNotFound`, any other
error status raises via `raise_for_status`, a parse failure raises a
`RuntimeError` — and the enclosing `except Exception` catches *all* of
them (including `EntryNotFound`) and re-raises
`RuntimeError(f"Failed to get dictionary entry {id}") from e`. -/
def get_entry_net (server : Server) (id : EntryId) : Except PyExc DictionaryEntry :=
  let inner : Except PyExc DictionaryEntry :=
    let r := server id
    if r.status = 404 then .error .entryNotFound
    else if 400 ≤ r.status then .error .httpStatusError
    else
      match r.parsed with
      | some e => .ok e
      | none => .error .runtimeErrorNoCause
  match inner with
  | .ok e => .ok e
  | .error e => .error (.runtimeError e)

/-- The fetcher's mutable state: the cache plus the thread-local in-flight
key set of the `norecurse` guard on `_norecurse_get_super_entry`. -/
structure FetcherState where
  db : CacheDB
  guard : List (EntryId × DefinitionId)

/-- A stateful, fallible computation over the fetcher state. -/
abbrev FetchM (α : Type) := FetcherState → Except PyExc α × FetcherState

/-- The nested `self.get_entry` call available during super-entry
resolution (one fuel step smaller). -/
abbrev Recur := EntryId → FetchM DictionaryEntry

/-- `norecurse` (`utils.py`): the decorator keeps a set of in-flight keys
(`storage.__dict__`), rejects re-entrant keys with
`RuntimeError("Unexpected recursion")`, and deletes the key after the
wrapped call — but only on normal return: there is no `try`/`finally`, so
a raising call skips the `del`.  `getG`/`setG` locate the guard set inside
the state `σ`. -/
def norecurseCall {σ α κ : Type} [DecidableEq κ]
    (getG : σ → List κ) (setG : List κ → σ → σ)
    (wrapped : σ → Except PyExc α × σ) (key : κ) (st : σ) : Except PyExc α × σ :=
  if key ∈ getG st then (.error .recursionError, st)
  else
    match wrapped (setG (key :: getG st) st) with
    | (.ok r, st2) => (.ok r, setG ((getG st2).erase key) st2)
    | (.error e, st2) => (.error e, st2)

/-- `comp == SELF_REFERENCE or comp == REPETITION_CHARACTER`. -/
def isSelfOrRep : Component → Bool
  | .selfRef => true
  | .ref r => r = REPETITION_CHARACTER

/-- The per-component loop of `_get_super_entry_pronounciations`: the
owning entry's own pronunciation for a self/repetition marker, otherwise
`self.get_entry(comp.id).pronounciations[name]` (a missing scheme raises
`KeyError`). -/
def superPronParts (recur : Recur) (name selfPron : String) :
    List Component → FetchM (List String)
  | [], st => (.ok [], st)
  | c :: rest, st =>
    if isSelfOrRep c then
      match superPronParts recur name selfPron rest st with
      | (.ok parts, st1) => (.ok (selfPron :: parts), st1)
      | (.error e, st1) => (.error e, st1)
    else
      match c with
      | .selfRef => (.error .assertionError, st)
      | .ref r =>
        match recur r.id st with
        | (.error e, st1) => (.error e, st1)
        | (.ok ce, st1) =>
          match tblLookup ce.pronounciations name with
          | none => (.error .keyError, st1)
          | some v =>
            match superPronParts recur name selfPron rest st1 with
            | (.ok parts, st2) => (.ok (v :: parts), st2)
            | (.error e, st2) => (.error e, st2)

/-- `DictionaryFetcher._get_super_entry_pronounciations`: space-joined
concatenation of the per-component pronunciations. -/
def get_super_entry_pronounciations (recur : Recur) (name selfPron : String)
    (comps : List Component) : FetchM String := fun st =>
  match superPronParts recur name selfPron comps st with
  | (.ok parts, st1) => (.ok (String.intercalate " " parts), st1)
  | (.error e, st1) => (.error e, st1)

/-- The dict comprehension over `entry.pronounciations.items()` inside
`get_super_entry`. -/
def superPronsMap (recur : Recur) (comps : List Component) :
    List (String × String) → FetchM (List (String × String))
  | [], st => (.ok [], st)
  | (name, pron) :: rest, st =>
    match get_super_entry_pronounciations recur name pron comps st with
    | (.error e, st1) => (.error e, st1)
    | (.ok v, st1) =>
      match superPronsMap recur comps rest st1 with
      | (.error e, st2) => (.error e, st2)
      | (.ok tail, st2) => (.ok ((name, v) :: tail), st2)

/-- `DictionaryFetcher.get_super_entry`: a missing definition id raises
`EntryNotFound`; the asserts require `super_entry` and `components` to be
set; the copied definition has `super_entry` cleared and each
self/repetition marker in `components` replaced by `EntryRef(entry.id)`;
the pronunciation mapping is rebuilt (from the *original* components) and
the synthetic entry keeps the original id with the super-entry spelling
as its headword and the single definition `defn_id`. -/
def get_super_entry (recur : Recur) (entry : DictionaryEntry) (defn_id : DefinitionId) :
    FetchM DictionaryEntry := fun st =>
  match tblLookup entry.definitions defn_id with
  | none => (.error .entryNotFound, st)
  | some defn =>
    match defn.super_entry, defn.components with
    | some superW, some comps =>
      let new_comps := comps.map (fun c =>
        if isSelfOrRep c then Component.ref ⟨entry.id, none⟩ else c)
      let new_defn := { defn with super_entry := none, components := some new_comps }
      match superPronsMap recur comps entry.pronounciations st with
      | (.error e, st1) => (.error e, st1)
      | (.ok prons, st1) =>
        (.ok ⟨entry.id, superW, prons, [(defn_id, new_defn)], none⟩, st1)
    | _, _ => (.error .assertionError, st)

/-- `DictionaryFetcher._norecurse_get_super_entry`: `get_super_entry`
guarded by `norecurse` with key `(entry.id, defn_id)`. -/
def norecurse_get_super_entry (recur : Recur) (entry : DictionaryEntry)
    (defn_id : DefinitionId) : FetchM DictionaryEntry :=
  norecurseCall (fun st => st.guard) (fun g st => { st with guard := g })
    (get_super_entry recur entry defn_id) (entry.id, defn_id)

/-- The eager super-entry resolution loop of `get_entry`: every definition
with `super_entry` set is resolved through the guard and its word and
pronunciation rows cached under `(entry.id, defn_id)`. -/
def cacheSuperEntries (recur : Recur) (entry : DictionaryEntry) :
    List (DefinitionId × EntryDefinition) → FetchM Unit
  | [], st => (.ok (), st)
  | (did, d) :: rest, st =>
    if d.super_entry.isSome then
      match norecurse_get_super_entry recur entry did st with
      | (.error e, st1) => (.error e, st1)
      | (.ok se, st1) =>
        cacheSuperEntries recur entry rest
          { st1 with db := cache_entry st1.db ⟨entry.id, some did⟩ se }
    else cacheSuperEntries recur entry rest st

/-- The cache-miss path of `get_entry`: fetch over the network; if the
canonical id differs and the canonical row already exists, skip adding
(only the redirect is recorded); otherwise insert the serialized row,
cache the index rows, eagerly resolve the super entries, and finally
record the redirect when the id was non-canonical. -/
def fetch_and_cache (server : Server) (recur : Recur) (id : EntryId) :
    FetchM DictionaryEntry := fun st =>
  match get_entry_net server id with
  | .error e => (.error e, st)
  | .ok entry =>
    if entry.id ≠ id ∧ (tblLookup st.db.entries entry.id).isSome then
      (.ok entry, { st with db := insertRedirectRow st.db id entry.id })
    else
      match cacheSuperEntries recur entry entry.definitions
          { st with db := cache_entry (insertEntryRow st.db entry.id (entryToJ entry)) ⟨entry.id, none⟩ entry } with
      | (.error e, st2) => (.error e, st2)
      | (.ok _, st2) =>
        if entry.id = id then (.ok entry, st2)
        else (.ok entry, { st2 with db := insertRedirectRow st2.db id entry.id })

/-- One unfolding of `DictionaryFetcher.get_entry`: follow a redirect row
(recursively), then try the cache (a row that fails to deserialize is
evicted and treated as a miss), then fetch. -/
def get_entry_step (server : Server) (recur : Recur) (id : EntryId) :
    FetchM DictionaryEntry := fun st =>
  match tblLookup st.db.redirects id with
  | some real_id => recur real_id st
  | none =>
    match tblLookup st.db.entries id with
    | some raw =>
      match entryFromJ raw with
      | some e => (.ok e, st)
      | none => fetch_and_cache server recur id { st with db := deleteEntryRow st.db id }
    | none => fetch_and_cache server recur id st

/-- `DictionaryFetcher.get_entry`, made total by fuel. -/
def get_entry (server : Server) : Nat → EntryId → FetchM DictionaryEntry
  | 0 => fun _ st => (.error .noFuel, st)
  | fuel + 1 => fun id st => get_entry_step server (get_entry server fuel) id st

/-- A freshly constructed fetcher over an empty cache. -/
def initialState : FetcherState := ⟨emptyDB, []⟩

/-- A sequence of `get_entry` calls, threading the state (results are
discarded; exceptions leave their partial state behind, as sqlite runs in
autocommit here). -/
def runCalls (server : Server) (fuel : Nat) (ids : List EntryId) (st : FetcherState) :
    FetcherState :=
  ids.foldl (fun s i => (get_entry server fuel i s).2) st

/-- The observable outcome of `lookup_word`: a non-empty local result is
returned directly; otherwise (or when forced) the function falls through
to the server-side search POST, which is outside the scope of the
analyzed claims. -/
inductive LookupWordResult where
  | localHit (refs : List EntryRef)
  | serverSearch
deriving DecidableEq

/-- `DictionaryFetcher.lookup_word`: the query is lowercased and
NFC-normalized, then matched for equality against the stored word-index
keys (which `_cache_entry` stored as `NFC(headword)` — *not* lowercased). -/
def lookup_word (db : CacheDB) (word : String) (force_serverside : Bool) : LookupWordResult :=
  let w := nfcNormalize (pyLower word)
  if force_serverside then .serverSearch
  else
    let local_ret := (db.words.filter (fun r => r.1 = w)).map (fun r => EntryRef.mk r.2.1 r.2.2)
    if local_ret.length > 0 then .localHit local_ret else .serverSearch

/-- The reference list a `lookup_word` outcome delivers locally. -/
def lookupLocalRefs : LookupWordResult → List EntryRef
  | .localHit refs => refs
  | .serverSearch => []

/-! ### C2 -/

/-- A site that answers HTTP 404 for every entry id. -/
def c2Server : Server := fun _ => ⟨404, none⟩

/-- C2 (code bug): on an HTTP 404, `_get_entry` raises
`EntryNotFound("Dictionary entry {id} does not exist")` — but that raise
sits *inside* the surrounding `try`, whose blanket
`except Exception as e: raise RuntimeError(...) from e` catches it, so
what escapes `get_entry` is a `RuntimeError` (with the `EntryNotFound`
only as its `__cause__`), the same exception type as every parse/network
failure: callers cannot distinguish not-found by exception type, although
the spec (and the `except EntryNotFound` handlers in the host
integration) clearly intend them to. -/
theorem c2_notfound_wrapped :
    get_entry_net c2Server 7 = .error (.runtimeError .entryNotFound) ∧
    (get_entry c2Server 1 7 initialState).1 = .error (.runtimeError .entryNotFound) ∧
    PyExc.runtimeError .entryNotFound ≠ PyExc.entryNotFound := by
  refine ⟨rfl, rfl, by decide⟩

/-! ### C6 -/

/-- A cache holding a corrupt row for entry 1 together with a redirect
row, a word-index row and a pronunciation-index row that all reference
entry 1. -/
def c6DB : CacheDB :=
  { entries := [(1, JVal.null)], redirects := [(2, 1)],
    words := [("w", 1, none)], pronounciations := [("p", "T", 1, none)],
    entryInsertLog := [1] }

/-- A site that is unreachable (404 everywhere), so the evicted row is not
refetched. -/
def c6Server : Server := fun _ => ⟨404, none⟩

/-- C6 (code bug): `get_entry(1)` evicts the corrupt `entries` row for
id 1 (`DELETE FROM entries WHERE id = ?`), but the dependent rows
referencing entry 1 — the redirect row `2 → 1`, the word-index row and
the pronunciation-index row — all survive, because the sqlite connection
never executes `PRAGMA foreign_keys = ON` and the schema's declared
`ON DELETE CASCADE` therefore never fires.  The cache is left with index
and redirect rows referencing an entry id that has no entry row,
contradicting the claimed referential cascade. -/
theorem c6_no_cascade :
    tblLookup (get_entry c6Server 2 1 ⟨c6DB, []⟩).2.db.entries 1 = none ∧
    (get_entry c6Server 2 1 ⟨c6DB, []⟩).2.db.entries = [] ∧
    tblLookup (get_entry c6Server 2 1 ⟨c6DB, []⟩).2.db.redirects 2 = some 1 ∧
    (get_entry c6Server 2 1 ⟨c6DB, []⟩).2.db.words = [("w", 1, none)] ∧
    (get_entry c6Server 2 1 ⟨c6DB, []⟩).2.db.pronounciations = [("p", "T", 1, none)] := by
  refine ⟨rfl, rfl, rfl, rfl, rfl⟩

/-! ### C9 -/

/-- A guarded call that raises. -/
def c9FailingWrapped : List Nat → Except PyExc Unit × List Nat :=
  fun s => (.error .runtimeErrorNoCause, s)

/-- A guarded call that returns normally. -/
def c9OkWrapped : List Nat → Except PyExc Nat × List Nat :=
  fun s => (.ok 7, s)

/-- C9 counterexample: after a guarded call that *raises*, the key is
still in the in-flight set (`norecurse` has no `try`/`finally`, so the
`del` after the wrapped call is skipped), and a subsequent non-reentrant
call with the same key is spuriously rejected as recursion. -/
theorem c9_guard_counterexample :
    (norecurseCall (fun s => s) (fun g _ => g) c9FailingWrapped 0 []).2 = [0] ∧
    0 ∈ (norecurseCall (fun s => s) (fun g _ => g) c9FailingWrapped 0 []).2 ∧
    norecurseCall (fun s => s) (fun g _ => g) c9OkWrapped 0
      (norecurseCall (fun s => s) (fun g _ => g) c9FailingWrapped 0 []).2 =
      (.error .recursionError, [0]) := by
  refine ⟨rfl, by decide, rfl⟩

/-- C9 (corrected): the guard releases its key only on *normal* return:
when the wrapped call returns a value and the in-flight set it leaves
behind holds the key once, the key is erased and is absent afterwards; but
when the wrapped call raises, the exception propagates with the in-flight
set untouched — the key stays in flight, and any later call under the
same key is rejected as recursion. -/
theorem c9_guard_release {σ α β γ : Type} {κ : Type} [DecidableEq κ]
    (getG : σ → List κ) (setG : List κ → σ → σ)
    (hlens : ∀ g s, getG (setG g s) = g)
    (wOk : σ → Except PyExc α × σ) (wErr : σ → Except PyExc β × σ)
    (w2 : σ → Except PyExc γ × σ) (key : κ) (st : σ)
    (hkey : key ∉ getG st)
    (r : α) (st2 : σ) (rest : List κ)
    (hok : wOk (setG (key :: getG st) st) = (.ok r, st2))
    (hrest : getG st2 = key :: rest) (hnr : key ∉ rest)
    (ex : PyExc) (st3 : σ)
    (herr : wErr (setG (key :: getG st) st) = (.error ex, st3))
    (hin : key ∈ getG st3) :
    (norecurseCall getG setG wOk key st = (.ok r, setG rest st2) ∧
      key ∉ getG (setG rest st2)) ∧
    (norecurseCall getG setG wErr key st = (.error ex, st3) ∧
      norecurseCall getG setG w2 key st3 = (.error .recursionError, st3)) := by
  refine ⟨⟨?_, ?_⟩, ?_, ?_⟩
  · unfold norecurseCall
    rw [if_neg hkey, hok]
    show (Except.ok r, setG ((getG st2).erase key) st2) = (Except.ok r, setG rest st2)
    rw [hrest, List.erase_cons_head]
  · rw [hlens]
    exact hnr
  · unfold norecurseCall
    rw [if_neg hkey, herr]
  · unfold norecurseCall
    rw [if_pos hin]

/-- C9 witness: the corrected release behaviour at concrete inputs. -/
theorem c9_guard_release_witness :
    (norecurseCall (fun s => s) (fun (g : List Nat) _ => g) c9OkWrapped 0 [] =
        (.ok 7, ([] : List Nat)) ∧
      (0 : Nat) ∉ (([] : List Nat)) ) ∧
    (norecurseCall (fun s => s) (fun (g : List Nat) _ => g) c9FailingWrapped 0 [] =
        (.error .runtimeErrorNoCause, [0]) ∧
      norecurseCall (fun s => s) (fun (g : List Nat) _ => g) c9OkWrapped 0 [0] =
        (.error .recursionError, [0])) :=
  c9_guard_release (fun s => s) (fun g _ => g) (fun _ _ => rfl)
    c9OkWrapped c9FailingWrapped c9OkWrapped 0 [] (by decide)
    7 [0] [] rfl rfl (by decide) .runtimeErrorNoCause [0] rfl (by decide)

/-! ### C8 -/

/-- A cached entry whose headword contains an uppercase character. -/
def c8CachedEntry : DictionaryEntry :=
  { id := 1, entry := "A", pronounciations := [], definitions := [] }

/-- The cache after `_cache_entry` stored `c8CachedEntry`. -/
def c8DB : CacheDB := cache_entry emptyDB ⟨1, none⟩ c8CachedEntry

/-- C8 counterexample: the headword `"A"` was stored in the word index as
`NFC("A") = "A"` (no lowercasing on the storing side), and the query
`"A"` — equal to the headword after NFC-normalizing and lowercasing
*both* — is looked up as `NFC(lower("A")) = "a"`, so the local index
misses and `lookup_word` falls through to the server-side search instead
of returning the entry's reference locally. -/
theorem c8_lookup_counterexample :
    nfcNormalize (pyLower "A") = nfcNormalize (pyLower c8CachedEntry.entry) ∧
    c8DB.words = [("A", 1, none)] ∧
    lookup_word c8DB "A" false = .serverSearch ∧
    lookup_word c8DB "A" false ≠ .localHit [⟨1, none⟩] := by
  refine ⟨rfl, rfl, rfl, by decide⟩

/-- C8 (corrected): the local match is exact equality between the
NFC-normalized *lowercased query* and the NFC-normalized stored headword
(which is not lowercased when stored): for every word-index row whose key
equals `NFC(lower(q))`, `lookup_word q` without forced server-side search
returns that entry's reference from the local index, with no server
request.  (The claimed fully case-insensitive match holds only when the
stored headword contains no uppercase characters.) -/
theorem c8_lookup_local (db : CacheDB) (q w : String) (i : EntryId)
    (d : Option DefinitionId)
    (hrow : (w, i, d) ∈ db.words) (hmatch : nfcNormalize (pyLower q) = w) :
    EntryRef.mk i d ∈ lookupLocalRefs (lookup_word db q false) ∧
    lookup_word db q false ≠ .serverSearch := by
  have hmem : EntryRef.mk i d ∈
      (db.words.filter (fun r => r.1 = nfcNormalize (pyLower q))).map
        (fun r => EntryRef.mk r.2.1 r.2.2) := by
    refine List.mem_map.mpr ⟨(w, i, d), ?_, rfl⟩
    refine List.mem_filter.mpr ⟨hrow, ?_⟩
    simp [hmatch]
  have hlen : ((db.words.filter (fun r => r.1 = nfcNormalize (pyLower q))).map
      (fun r => EntryRef.mk r.2.1 r.2.2)).length > 0 :=
    List.length_pos.mpr (List.ne_nil_of_mem hmem)
  unfold lookup_word
  rw [if_neg (by simp)]
  simp only
  rw [if_pos hlen]
  exact ⟨hmem, by simp [lookupLocalRefs]⟩

/-- A cached entry with a lowercase headword. -/
def c8GoodEntry : DictionaryEntry :=
  { id := 3, entry := "kai", pronounciations := [("Paiboon", "gai")], definitions := [] }

/-- C8 witness: the corrected local-lookup theorem at concrete inputs
(an uppercased query finds the lowercase-stored headword). -/
theorem c8_lookup_local_witness :
    EntryRef.mk 3 none ∈
      lookupLocalRefs (lookup_word (cache_entry emptyDB ⟨3, none⟩ c8GoodEntry) "KAI" false) ∧
    lookup_word (cache_entry emptyDB ⟨3, none⟩ c8GoodEntry) "KAI" false ≠ .serverSearch :=
  c8_lookup_local (cache_entry emptyDB ⟨3, none⟩ c8GoodEntry) "KAI" "kai" 3 none
    (by decide) (by decide)

/-! ### C3 -/

/-- Entry `i` is cleanly cached in state `st` as `e`: no redirect row, the
`entries` row holds the serialized form of `e`, and that form deserializes
back to `e` — so `get_entry i` is a pure cache hit. -/
def CachedClean (st : FetcherState) (i : EntryId) (e : DictionaryEntry) : Prop :=
  tblLookup st.db.redirects i = none ∧
  tblLookup st.db.entries i = some (entryToJ e) ∧
  entryFromJ (entryToJ e) = some e

/-- A cleanly cached entry is returned from the cache with the state
untouched. -/
theorem get_entry_cache_hit (server : Server) (f : Nat) (i : EntryId)
    (e : DictionaryEntry) (st : FetcherState) (h : CachedClean st i e) :
    get_entry server (f + 1) i st = (.ok e, st) := by
  obtain ⟨h1, h2, h3⟩ := h
  show get_entry_step server (get_entry server f) i st = _
  simp only [get_entry_step, h1, h2, h3]

/-- Resolvability of one component during super-entry resolution against a
warm cache: markers need nothing; a real reference must be cleanly cached
as `E r.id` and carry the pronunciation scheme `name`. -/
def SuperCompOK (st : FetcherState) (E : EntryId → DictionaryEntry)
    (name : String) : Component → Prop
  | .selfRef => True
  | .ref r => r = REPETITION_CHARACTER ∨
      (CachedClean st r.id (E r.id) ∧
        (tblLookup (E r.id).pronounciations name).isSome = true)

/-- The claim's description of one scheme's part list: per component, the
owning entry's own pronunciation for a self or repetition-character
marker, otherwise the component entry's pronunciation in that scheme. -/
def superPronSpec (E : EntryId → DictionaryEntry) (selfPron name : String)
    (comps : List Component) : List String :=
  comps.map (fun c =>
    match c with
    | Component.selfRef => selfPron
    | Component.ref r =>
      if r = REPETITION_CHARACTER then selfPron
      else (tblLookup (E r.id).pronounciations name).getD "")

/-- The claim's description of the synthetic definition: `super_entry`
cleared, every self/repetition marker replaced by an explicit reference to
the owning entry id. -/
def superDefnSpec (eid : EntryId) (defn : EntryDefinition) (comps : List Component) :
    EntryDefinition :=
  { defn with
    super_entry := none,
    components := some (comps.map (fun c =>
      if isSelfOrRep c then Component.ref ⟨eid, none⟩ else c)) }

/-- The claim's description of the synthetic super entry: the original id,
the super-entry spelling as headword, exactly the single definition, and
per scheme the space-joined concatenation of the components'
pronunciations with the owning entry's own pronunciation substituted at
markers. -/
def superEntrySpec (E : EntryId → DictionaryEntry) (entry : DictionaryEntry)
    (did : DefinitionId) (defn : EntryDefinition) (sw : String)
    (comps : List Component) : DictionaryEntry :=
  { id := entry.id,
    entry := sw,
    pronounciations := entry.pronounciations.map (fun p =>
      (p.1, String.intercalate " " (superPronSpec E p.2 p.1 comps))),
    definitions := [(did, superDefnSpec entry.id defn comps)],
    sound_url := none }

theorem superPronParts_ok (server : Server) (f : Nat) (name selfPron : String)
    (st : FetcherState) (E : EntryId → DictionaryEntry)
    (comps : List Component) (h : ∀ c ∈ comps, SuperCompOK st E name c) :
    superPronParts (get_entry server (f + 1)) name selfPron comps st =
      (.ok (superPronSpec E selfPron name comps), st) := by
  induction comps with
  | nil => rfl
  | cons c rest ih =>
    have hrest := ih (fun x hx => h x (List.mem_cons_of_mem c hx))
    have hc := h c (List.mem_cons_self c rest)
    cases c with
    | selfRef =>
      simp only [superPronParts, isSelfOrRep, if_true, hrest, superPronSpec, List.map_cons]
    | ref r =>
      by_cases hrep : r = REPETITION_CHARACTER
      · have hmark : isSelfOrRep (Component.ref r) = true := by
          simp [isSelfOrRep, hrep]
        simp only [superPronParts, hmark, if_true, hrest, superPronSpec, List.map_cons,
          if_pos hrep]
      · have hmark : isSelfOrRep (Component.ref r) = false := by
          simp [isSelfOrRep, hrep]
        rcases hc with hc | ⟨hcc, hsome⟩
        · exact absurd hc hrep
        · obtain ⟨v, hv⟩ := Option.isSome_iff_exists.mp hsome
          simp only [superPronParts, hmark, Bool.false_eq_true, if_false,
            get_entry_cache_hit server f r.id (E r.id) st hcc, hv, hrest,
            superPronSpec, List.map_cons, if_neg hrep, Option.getD_some]

theorem get_super_entry_pronounciations_ok (server : Server) (f : Nat)
    (name selfPron : String) (st : FetcherState) (E : EntryId → DictionaryEntry)
    (comps : List Component) (h : ∀ c ∈ comps, SuperCompOK st E name c) :
    get_super_entry_pronounciations (get_entry server (f + 1)) name selfPron comps st =
      (.ok (String.intercalate " " (superPronSpec E selfPron name comps)), st) := by
  unfold get_super_entry_pronounciations
  rw [superPronParts_ok server f name selfPron st E comps h]

theorem superPronsMap_ok (server : Server) (f : Nat) (st : FetcherState)
    (E : EntryId → DictionaryEntry) (comps : List Component)
    (prons : List (String × String))
    (h : ∀ p ∈ prons, ∀ c ∈ comps, SuperCompOK st E p.1 c) :
    superPronsMap (get_entry server (f + 1)) comps prons st =
      (.ok (prons.map (fun p =>
        (p.1, String.intercalate " " (superPronSpec E p.2 p.1 comps)))), st) := by
  induction prons with
  | nil => rfl
  | cons p rest ih =>
    have hp := h p (List.mem_cons_self p rest)
    have hrest := ih (fun x hx => h x (List.mem_cons_of_mem p hx))
    cases p with
    | mk name pron =>
      simp only [superPronsMap,
        get_super_entry_pronounciations_ok server f name pron st E comps hp,
        hrest, List.map_cons]

/-- C3: `get_super_entry(e, d)` with a definition id `badId` absent from
`e.definitions` raises `EntryNotFound` with the state (and `e`, a pure
value here) unchanged; and for a present definition id `did` whose
definition has `super_entry` and `components` set, with every referenced
component cleanly cached (as `E`) and carrying each of `e`'s pronunciation
schemes, it returns — without touching the state — the synthetic entry of
`superEntrySpec`: id `e.id`, headword the super-entry spelling, exactly
the single definition `did`, components with every self/repetition marker
replaced by an explicit `EntryRef` to `e.id` (so no raw `"self"` marker
remains), and per scheme the space-joined concatenation of component
pronunciations with `e`'s own pronunciation substituted at markers. -/
theorem c3_get_super_entry (server : Server) (f : Nat) (st : FetcherState)
    (entry : DictionaryEntry) (did : DefinitionId) (defn : EntryDefinition)
    (sw : String) (comps : List Component) (E : EntryId → DictionaryEntry)
    (hd : tblLookup entry.definitions did = some defn)
    (hsup : defn.super_entry = some sw) (hcomps : defn.components = some comps)
    (hres : ∀ p ∈ entry.pronounciations, ∀ c ∈ comps, SuperCompOK st E p.1 c)
    (badId : DefinitionId) (hbad : tblLookup entry.definitions badId = none) :
    get_super_entry (get_entry server (f + 1)) entry did st =
      (.ok (superEntrySpec E entry did defn sw comps), st) ∧
    Component.selfRef ∉ (superDefnSpec entry.id defn comps).components.getD [] ∧
    get_super_entry (get_entry server (f + 1)) entry badId st =
      (.error .entryNotFound, st) := by
  refine ⟨?_, ?_, ?_⟩
  · simp only [get_super_entry, hd, hsup, hcomps,
      superPronsMap_ok server f st E comps entry.pronounciations hres]
    rfl
  · simp only [superDefnSpec, Option.getD_some, List.mem_map]
    rintro ⟨c, _, hc⟩
    by_cases hm : isSelfOrRep c = true
    · rw [if_pos hm] at hc
      exact Component.noConfusion hc
    · rw [if_neg hm] at hc
      subst hc
      exact hm rfl
  · simp only [get_super_entry, hbad]

/-- A composite definition: components are a self marker, a reference to
entry 5, and the repetition character. -/
def c3SuperDefn : EntryDefinition :=
  { id := "1", definition := "d", classes := [],
    super_entry := some "abx",
    components := some [Component.selfRef, Component.ref ⟨5, none⟩,
      Component.ref ⟨132853, none⟩] }

/-- The owning entry. -/
def c3Entry : DictionaryEntry :=
  { id := 4, entry := "ab", pronounciations := [("Paiboon", "kha")],
    definitions := [("1", c3SuperDefn)] }

/-- The referenced component entry. -/
def c3Comp5 : DictionaryEntry :=
  { id := 5, entry := "x", pronounciations := [("Paiboon", "maa")],
    definitions := [("#", { id := "#", definition := "cd", classes := [] })] }

/-- A warm cache holding the component entry. -/
def c3State : FetcherState :=
  ⟨{ entries := [(5, entryToJ c3Comp5)], redirects := [], words := [],
     pronounciations := [], entryInsertLog := [5] }, []⟩

/-- The resolver picking the cached component entry. -/
def c3E : EntryId → DictionaryEntry := fun _ => c3Comp5

/-- C3 witness: the super-entry theorem at concrete inputs — the
synthetic entry keeps id 4, takes the spelling `"abx"`, rewrites the
marker components to `EntryRef(4)`, and joins `"kha maa kha"` for the
Paiboon scheme; a missing definition id raises `EntryNotFound`. -/
theorem c3_get_super_entry_witness :
    get_super_entry (get_entry (fun _ => ⟨404, none⟩) 1) c3Entry "1" c3State =
      (.ok (superEntrySpec c3E c3Entry "1" c3SuperDefn "abx"
        [Component.selfRef, Component.ref ⟨5, none⟩, Component.ref ⟨132853, none⟩]),
       c3State) ∧
    Component.selfRef ∉ (superDefnSpec c3Entry.id c3SuperDefn
      [Component.selfRef, Component.ref ⟨5, none⟩,
        Component.ref ⟨132853, none⟩]).components.getD [] ∧
    get_super_entry (get_entry (fun _ => ⟨404, none⟩) 1) c3Entry "z" c3State =
      (.error .entryNotFound, c3State) :=
  c3_get_super_entry (fun _ => ⟨404, none⟩) 0 c3State c3Entry "1" c3SuperDefn "abx"
    [Component.selfRef, Component.ref ⟨5, none⟩, Component.ref ⟨132853, none⟩] c3E
    rfl rfl rfl
    (by
      intro p hp c hc
      fin_cases hp
      fin_cases hc
      · trivial
      · exact Or.inr ⟨⟨rfl, rfl, rfl⟩, rfl⟩
      · exact Or.inl rfl)
    "z" rfl

/-! ## The note formatter's component walk
(`thai_dictionary/note.py`, `NoteFormatter.build_components`)

The walk is analyzed over a warm cache: a finite universe of entries in
which `fetcher.get_entry` is a pure lookup by id (`pureRecur`), so the
`get_super_entry` resolution inside the walk reuses the fetcher embedding
with that resolver.  The generator is modelled as the list of its yields;
the unbounded recursion is made total by fuel, with `BCRes.diverge`
marking exhaustion (distinct from `BCRes.err`, a raised exception). -/

/-- A finite universe of cached entries, keyed by id. -/
abbrev Universe := List (EntryId × DictionaryEntry)

/-- `WordComponent` (`note.py`). -/
structure WordComponent where
  id : EntryId
  definition : DefinitionId
  entry : DictionaryEntry
  level : Nat
deriving DecidableEq

/-- `get_entry` against a warm cache: pure lookup; a miss aborts with the
wrapped not-found failure of `_get_entry`. -/
def pureRecur (univ : Universe) : Recur := fun i st =>
  match tblLookup univ i with
  | some e => (.ok e, st)
  | none => (.error (.runtimeError .entryNotFound), st)

/-- `get_super_entry` over the warm cache (the state is irrelevant for a
pure resolver and discarded). -/
def get_super_entry_pure (univ : Universe) (entry : DictionaryEntry)
    (defn_id : DefinitionId) : Option DictionaryEntry :=
  match get_super_entry (pureRecur univ) entry defn_id ⟨emptyDB, []⟩ with
  | (.ok e, _) => some e
  | (.error _, _) => none

/-- `next((defn for defn in entry.definitions.values() if defn.components
is not None and defn.super_entry is None), ...)`: the first definition
carrying components that is not itself a super entry. -/
def firstComponentsDefn (e : DictionaryEntry) : Option EntryDefinition :=
  (e.definitions.map Prod.snd).find?
    (fun d => d.components.isSome && decide (d.super_entry = none))

/-- The outcome of a `build_components` walk: the yielded components and
the final visited set, an escaped exception, or fuel exhaustion (a model
artifact: the real generator would recurse unboundedly). -/
inductive BCRes where
  | ok (comps : List WordComponent) (visited : List (EntryId × DefinitionId))
  | err
  | diverge
deriving DecidableEq

/-- The loop body of `build_components` over one components list; `bcRec`
is the recursive walk at one fuel step less.  A self marker or a
self-referencing id is skipped; the component entry is resolved (a lookup
miss raises); its definition defaults to the component's first definition;
an already-visited `(component id, definition)` pair is skipped; the
definition is fetched (`KeyError` on absence); a super-entry definition is
resolved one level further; then the component is yielded, the pair marked
visited, and the walk recurses into the resolved entry. -/
def build_components_loop (univ : Universe)
    (bcRec : DictionaryEntry → List (EntryId × DefinitionId) → Nat → BCRes) :
    List Component → EntryId → List (EntryId × DefinitionId) → Nat → BCRes
  | [], _, visited, _ => .ok [] visited
  | c :: rest, eid, visited, level =>
    match c with
    | .selfRef => build_components_loop univ bcRec rest eid visited level
    | .ref rel =>
      if rel.id = eid then build_components_loop univ bcRec rest eid visited level
      else
        match tblLookup univ rel.id with
        | none => .err
        | some component =>
          match (match rel.definition with
                 | some d => some d
                 | none => component.first_definition) with
          | none => .err
          | some defn =>
            if (component.id, defn) ∈ visited then
              build_components_loop univ bcRec rest eid visited level
            else
              match tblLookup component.definitions defn with
              | none => .err
              | some d =>
                match (if d.super_entry.isSome
                       then get_super_entry_pure univ component defn
                       else some component) with
                | none => .err
                | some comp_entry =>
                  match bcRec comp_entry (visited ++ [(component.id, defn)]) (level + 1) with
                  | .diverge => .diverge
                  | .err => .err
                  | .ok sub vis2 =>
                    match build_components_loop univ bcRec rest eid vis2 level with
                    | .diverge => .diverge
                    | .err => .err
                    | .ok tail vis3 =>
                      .ok (⟨component.id, defn, comp_entry, level⟩ :: sub ++ tail) vis3

/-- `NoteFormatter.build_components`, made total by fuel: pick the first
plain components definition (no yield when there is none) and walk its
components list. -/
def build_components (univ : Universe) :
    Nat → DictionaryEntry → List (EntryId × DefinitionId) → Nat → BCRes
  | 0, _, _, _ => .diverge
  | f + 1, entry, visited, level =>
    match firstComponentsDefn entry with
    | none => .ok [] visited
    | some comp_defn =>
      match comp_defn.components with
      | none => .err
      | some comps =>
        build_components_loop univ (build_components univ f) comps entry.id visited level

/-- The `(component id, definition id)` key of a yield. -/
def wcKey (w : WordComponent) : EntryId × DefinitionId := (w.id, w.definition)

/-- The yielded keys of a walk outcome. -/
def bcResKeys : BCRes → List (EntryId × DefinitionId)
  | .ok l _ => l.map wcKey
  | .err => []
  | .diverge => []

/-- A visitable pair: an id resolvable in the universe whose entry has the
definition key. -/
def validPair (univ : Universe) (p : EntryId × DefinitionId) : Prop :=
  ∃ e, tblLookup univ p.1 = some e ∧ (tblLookup e.definitions p.2).isSome = true

/-- All visitable pairs of the universe. -/
def allPairs (univ : Universe) : List (EntryId × DefinitionId) :=
  univ.flatMap (fun q => q.2.definitions.map (fun r => (q.1, r.1)))

/-- The walk's visited-set invariant: distinct, visitable pairs. -/
def BCInv (univ : Universe) (vis : List (EntryId × DefinitionId)) : Prop :=
  vis.Nodup ∧ ∀ p ∈ vis, validPair univ p

theorem tblLookup_mem {κ α : Type} [DecidableEq κ] {l : List (κ × α)} {k : κ} {v : α}
    (h : tblLookup l k = some v) : (k, v) ∈ l := by
  induction l with
  | nil => cases h
  | cons q rest ih =>
    cases q with
    | mk k' v' =>
      simp only [tblLookup] at h
      by_cases hk : k' = k
      · rw [if_pos hk] at h
        cases h
        subst hk
        exact List.mem_cons_self _ _
      · rw [if_neg hk] at h
        exact List.mem_cons_of_mem _ (ih h)

theorem validPair_mem_allPairs {univ : Universe} {p : EntryId × DefinitionId}
    (h : validPair univ p) : p ∈ allPairs univ := by
  obtain ⟨e, he, hd⟩ := h
  obtain ⟨d, hd'⟩ := Option.isSome_iff_exists.mp hd
  cases p with
  | mk i dd =>
    exact List.mem_flatMap.mpr ⟨(i, e), tblLookup_mem he,
      List.mem_map.mpr ⟨(dd, d), tblLookup_mem hd', rfl⟩⟩

theorem bcInv_length_le {univ : Universe} {vis : List (EntryId × DefinitionId)}
    (h : BCInv univ vis) : vis.length ≤ (allPairs univ).length :=
  (h.1.subperm (fun p hp => validPair_mem_allPairs (h.2 p hp))).length_le

/-- Extension property of the loop, parameterized by the same property of
the nested walk: an `ok` outcome's visited set is the input visited set
followed by exactly the yielded keys. -/
theorem bc_loop_ext (univ : Universe)
    (bcRec : DictionaryEntry → List (EntryId × DefinitionId) → Nat → BCRes)
    (hrec : ∀ e vis lvl l vis', bcRec e vis lvl = .ok l vis' → vis' = vis ++ l.map wcKey) :
    ∀ (comps : List Component) (eid : EntryId) (vis : List (EntryId × DefinitionId))
      (lvl : Nat) (l : List WordComponent) (vis' : List (EntryId × DefinitionId)),
      build_components_loop univ bcRec comps eid vis lvl = .ok l vis' →
      vis' = vis ++ l.map wcKey := by
  intro comps
  induction comps with
  | nil =>
    intro eid vis lvl l vis' h
    simp only [build_components_loop] at h
    cases h
    simp
  | cons c rest ih =>
    intro eid vis lvl l vis' h
    cases c with
    | selfRef =>
      simp only [build_components_loop] at h
      exact ih _ _ _ _ _ h
    | ref rel =>
      simp only [build_components_loop] at h
      split at h
      · exact ih _ _ _ _ _ h
      · split at h
        · cases h
        · split at h
          · cases h
          · split at h
            · exact ih _ _ _ _ _ h
            · split at h
              · cases h
              · split at h
                · cases h
                · rename_i component defn d comp_entry heq1 heq2 hvis heq3 heq4
                  split at h
                  · cases h
                  · cases h
                  · rename_i sub vis2 heq5
                    split at h
                    · cases h
                    · cases h
                    · rename_i tail vis3 heq6
                      cases h
                      have h1 := hrec _ _ _ _ _ heq5
                      have h2 := ih _ _ _ _ _ heq6
                      subst h1 h2
                      simp [wcKey]

/-- Extension property of the walk at every fuel. -/
theorem bc_ext (univ : Universe) :
    ∀ (f : Nat) (e : DictionaryEntry) (vis : List (EntryId × DefinitionId)) (lvl : Nat)
      (l : List WordComponent) (vis' : List (EntryId × DefinitionId)),
      build_components univ f e vis lvl = .ok l vis' → vis' = vis ++ l.map wcKey := by
  intro f
  induction f with
  | zero => intro e vis lvl l vis' h; cases h
  | succ f ih =>
    intro e vis lvl l vis' h
    simp only [build_components] at h
    split at h
    · cases h
      simp
    · split at h
      · cases h
      · exact bc_loop_ext univ (build_components univ f) ih _ _ _ _ _ _ h

/-- Invariant preservation of the loop, parameterized by the extension and
preservation properties of the nested walk: newly visited pairs are fresh
(checked against the visited set) and visitable (both lookups succeeded
before the add). -/
theorem bc_loop_inv (univ : Universe) (hids : ∀ q ∈ univ, q.2.id = q.1)
    (bcRec : DictionaryEntry → List (EntryId × DefinitionId) → Nat → BCRes)
    (hrecInv : ∀ e vis lvl l vis', BCInv univ vis → bcRec e vis lvl = .ok l vis' →
      BCInv univ vis') :
    ∀ (comps : List Component) (eid : EntryId) (vis : List (EntryId × DefinitionId))
      (lvl : Nat) (l : List WordComponent) (vis' : List (EntryId × DefinitionId)),
      BCInv univ vis →
      build_components_loop univ bcRec comps eid vis lvl = .ok l vis' →
      BCInv univ vis' := by
  intro comps
  induction comps with
  | nil =>
    intro eid vis lvl l vis' hinv h
    simp only [build_components_loop] at h
    cases h
    exact hinv
  | cons c rest ih =>
    intro eid vis lvl l vis' hinv h
    cases c with
    | selfRef =>
      simp only [build_components_loop] at h
      exact ih _ _ _ _ _ hinv h
    | ref rel =>
      simp only [build_components_loop] at h
      split at h
      · exact ih _ _ _ _ _ hinv h
      · split at h
        · cases h
        · rename_i component heq1
          split at h
          · cases h
          · rename_i defn heq2
            split at h
            · exact ih _ _ _ _ _ hinv h
            · rename_i hvis
              split at h
              · cases h
              · rename_i d heq3
                split at h
                · cases h
                · rename_i comp_entry heq4
                  split at h
                  · cases h
                  · cases h
                  · rename_i sub vis2 heq5
                    split at h
                    · cases h
                    · cases h
                    · rename_i tail vis3 heq6
                      cases h
                      have hcid : component.id = rel.id := hids _ (tblLookup_mem heq1)
                      have hnew : validPair univ (component.id, defn) := by
                        refine ⟨component, ?_, ?_⟩
                        · rw [hcid]
                          exact heq1
                        · rw [heq3]
                          rfl
                      have hinv1 : BCInv univ (vis ++ [(component.id, defn)]) := by
                        constructor
                        · refine hinv.1.append (List.nodup_singleton _) ?_
                          intro p hp hp'
                          rw [List.mem_singleton.mp hp'] at hp
                          exact hvis hp
                        · intro p hp
                          rcases List.mem_append.mp hp with hp | hp
                          · exact hinv.2 p hp
                          · rw [List.mem_singleton.mp hp]
                            exact hnew
                      exact ih _ _ _ _ _ (hrecInv _ _ _ _ _ hinv1 heq5) heq6

/-- Invariant preservation of the walk at every fuel. -/
theorem bc_inv (univ : Universe) (hids : ∀ q ∈ univ, q.2.id = q.1) :
    ∀ (f : Nat) (e : DictionaryEntry) (vis : List (EntryId × DefinitionId)) (lvl : Nat)
      (l : List WordComponent) (vis' : List (EntryId × DefinitionId)),
      BCInv univ vis → build_components univ f e vis lvl = .ok l vis' →
      BCInv univ vis' := by
  intro f
  induction f with
  | zero => intro e vis lvl l vis' _ h; cases h
  | succ f ih =>
    intro e vis lvl l vis' hinv h
    simp only [build_components] at h
    split at h
    · cases h
      exact hinv
    · split at h
      · cases h
      · exact bc_loop_inv univ hids (build_components univ f) ih _ _ _ _ _ _ hinv h

/-- Fuel sufficiency of the loop: the nested walk is entered only after a
fresh valid pair has been added to the visited set, so the loop cannot
exhaust fuel while enough fuel remains for the pairs not yet visited. -/
theorem bc_loop_nd (univ : Universe) (hids : ∀ q ∈ univ, q.2.id = q.1)
    (bcRec : DictionaryEntry → List (EntryId × DefinitionId) → Nat → BCRes) (g : Nat)
    (hrecExt : ∀ e vis lvl l vis', bcRec e vis lvl = .ok l vis' → vis' = vis ++ l.map wcKey)
    (hrecInv : ∀ e vis lvl l vis', BCInv univ vis → bcRec e vis lvl = .ok l vis' →
      BCInv univ vis')
    (hrecNd : ∀ e vis lvl, BCInv univ vis → (allPairs univ).length < g + vis.length →
      bcRec e vis lvl ≠ .diverge) :
    ∀ (comps : List Component) (eid : EntryId) (vis : List (EntryId × DefinitionId))
      (lvl : Nat), BCInv univ vis → (allPairs univ).length ≤ g + vis.length →
      build_components_loop univ bcRec comps eid vis lvl ≠ .diverge := by
  intro comps
  induction comps with
  | nil =>
    intro eid vis lvl _ _ hdiv
    cases hdiv
  | cons c rest ih =>
    intro eid vis lvl hinv hfuel hdiv
    cases c with
    | selfRef =>
      simp only [build_components_loop] at hdiv
      exact ih _ _ _ hinv hfuel hdiv
    | ref rel =>
      simp only [build_components_loop] at hdiv
      split at hdiv
      · exact ih _ _ _ hinv hfuel hdiv
      · split at hdiv
        · cases hdiv
        · rename_i component heq1
          split at hdiv
          · cases hdiv
          · rename_i defn heq2
            split at hdiv
            · exact ih _ _ _ hinv hfuel hdiv
            · rename_i hvis
              split at hdiv
              · cases hdiv
              · rename_i d heq3
                split at hdiv
                · cases hdiv
                · rename_i comp_entry heq4
                  have hcid : component.id = rel.id := hids _ (tblLookup_mem heq1)
                  have hnew : validPair univ (component.id, defn) := by
                    refine ⟨component, ?_, ?_⟩
                    · rw [hcid]
                      exact heq1
                    · rw [heq3]
                      rfl
                  have hinv1 : BCInv univ (vis ++ [(component.id, defn)]) := by
                    constructor
                    · refine hinv.1.append (List.nodup_singleton _) ?_
                      intro p hp hp'
                      rw [List.mem_singleton.mp hp'] at hp
                      exact hvis hp
                    · intro p hp
                      rcases List.mem_append.mp hp with hp | hp
                      · exact hinv.2 p hp
                      · rw [List.mem_singleton.mp hp]
                        exact hnew
                  have hfuel1 : (allPairs univ).length <
                      g + (vis ++ [(component.id, defn)]).length := by
                    simp only [List.length_append, List.length_singleton]
                    omega
                  split at hdiv
                  · rename_i heq5
                    exact hrecNd _ _ _ hinv1 hfuel1 heq5
                  · cases hdiv
                  · rename_i sub vis2 heq5
                    have hvis2 := hrecExt _ _ _ _ _ heq5
                    have hinv2 := hrecInv _ _ _ _ _ hinv1 heq5
                    have hlen2 : (vis ++ [(component.id, defn)]).length ≤ vis2.length := by
                      rw [hvis2]
                      simp
                    split at hdiv
                    · rename_i heq6
                      refine ih _ _ _ hinv2 ?_ heq6
                      simp only [List.length_append, List.length_singleton] at hlen2
                      omega
                    · cases hdiv
                    · cases hdiv

/-- Fuel sufficiency of the walk: with more fuel than there are visitable
pairs outside the visited set, the walk cannot exhaust its fuel. -/
theorem bc_nd (univ : Universe) (hids : ∀ q ∈ univ, q.2.id = q.1) :
    ∀ (f : Nat) (e : DictionaryEntry) (vis : List (EntryId × DefinitionId)) (lvl : Nat),
      BCInv univ vis → (allPairs univ).length < f + vis.length →
      build_components univ f e vis lvl ≠ .diverge := by
  intro f
  induction f with
  | zero =>
    intro e vis lvl hinv hfuel _
    exact absurd (bcInv_length_le hinv) (by omega)
  | succ f ih =>
    intro e vis lvl hinv hfuel hdiv
    simp only [build_components] at hdiv
    split at hdiv
    · cases hdiv
    · split at hdiv
      · cases hdiv
      · refine bc_loop_nd univ hids (build_components univ f) f
          (bc_ext univ f) (bc_inv univ hids f) (ih) _ _ _ _ hinv (by omega) hdiv

/-- C4: over any finite universe (keyed by canonical id) whose component
structure is mutually cyclic — an entry `a` whose components include a
self-reference and a reference to `b`, and `b` referencing back to `a` —
the component walk `build_components` terminates (any fuel beyond the
number of visitable `(id, definition)` pairs is never exhausted) and
yields each `(component id, definition id)` pair at most once; and
re-entering super-entry resolution through the recursion guard with a key
already in flight raises the recursion error instead of looping. -/
theorem c4_component_walk (univ : Universe) (hids : ∀ q ∈ univ, q.2.id = q.1)
    (a b : EntryId) (ea eb : DictionaryEntry) (_hab : a ≠ b)
    (_hA : tblLookup univ a = some ea) (_hB : tblLookup univ b = some eb)
    (_hcycA : ∃ p ∈ ea.definitions, ∃ l, p.2.components = some l ∧
      Component.selfRef ∈ l ∧ ∃ r, Component.ref r ∈ l ∧ r.id = b)
    (_hcycB : ∃ p ∈ eb.definitions, ∃ l, p.2.components = some l ∧
      ∃ r, Component.ref r ∈ l ∧ r.id = a)
    (entry : DictionaryEntry) (f : Nat) (hf : (allPairs univ).length < f)
    (recur : Recur) (ent : DictionaryEntry) (did : DefinitionId) (st : FetcherState)
    (hguard : (ent.id, did) ∈ st.guard) :
    build_components univ f entry [] 0 ≠ .diverge ∧
    (bcResKeys (build_components univ f entry [] 0)).Nodup ∧
    norecurse_get_super_entry recur ent did st = (.error .recursionError, st) := by
  refine ⟨?_, ?_, ?_⟩
  · exact bc_nd univ hids f entry [] 0 ⟨List.nodup_nil, by intro p hp; cases hp⟩
      (by simpa using hf)
  · cases hres : build_components univ f entry [] 0 with
    | ok l vis' =>
      have hext := bc_ext univ f entry [] 0 l vis' hres
      have hinv := bc_inv univ hids f entry [] 0 l vis'
        ⟨List.nodup_nil, by intro p hp; cases hp⟩ hres
      simp only [bcResKeys]
      have : vis' = l.map wcKey := by simpa using hext
      rw [← this]
      exact hinv.1
    | err => exact List.nodup_nil
    | diverge => exact List.nodup_nil
  · unfold norecurse_get_super_entry norecurseCall
    rw [if_pos hguard]

/-- The cyclic components definition of witness entry `a`. -/
def c4DefnA : EntryDefinition :=
  { id := "#", definition := "x", classes := [],
    components := some [Component.selfRef, Component.ref ⟨11, none⟩] }

/-- Entry `a` of the witness cycle: components `[self, ref b]`. -/
def c4EntryA : DictionaryEntry :=
  { id := 10, entry := "a", pronounciations := [], definitions := [("#", c4DefnA)] }

/-- The back-referencing components definition of witness entry `b`. -/
def c4DefnB : EntryDefinition :=
  { id := "#", definition := "y", classes := [],
    components := some [Component.ref ⟨10, none⟩] }

/-- Entry `b` of the witness cycle: components `[ref a]`. -/
def c4EntryB : DictionaryEntry :=
  { id := 11, entry := "b", pronounciations := [], definitions := [("#", c4DefnB)] }

/-- The mutually cyclic two-entry universe. -/
def c4Univ : Universe := [(10, c4EntryA), (11, c4EntryB)]

/-- C4 witness: the walk over the concrete mutually cyclic universe with
fuel 3 (one more than its two visitable pairs) terminates with pairwise
distinct yields, and a guarded super-entry call whose key is already in
flight is rejected as recursion. -/
theorem c4_component_walk_witness :
    build_components c4Univ 3 c4EntryA [] 0 ≠ .diverge ∧
    (bcResKeys (build_components c4Univ 3 c4EntryA [] 0)).Nodup ∧
    norecurse_get_super_entry (pureRecur c4Univ) c4EntryA "#" ⟨emptyDB, [(10, "#")]⟩ =
      (.error .recursionError, ⟨emptyDB, [(10, "#")]⟩) :=
  c4_component_walk c4Univ (by decide) 10 11 c4EntryA c4EntryB (by decide)
    rfl rfl
    ⟨("#", c4DefnA), by decide,
      [Component.selfRef, Component.ref ⟨11, none⟩], rfl, by decide,
      ⟨11, none⟩, by decide, rfl⟩
    ⟨("#", c4DefnB), by decide,
      [Component.ref ⟨10, none⟩], rfl,
      ⟨10, none⟩, by decide, rfl⟩
    c4EntryA 3 (by decide) (pureRecur c4Univ) c4EntryA "#" ⟨emptyDB, [(10, "#")]⟩
    (by decide)

/-! ### C1

Alias closure.  The scenario: a non-canonical id `A` whose page reports
the canonical id `B ≠ A`.  The environment hypotheses state what the
claim's wording presumes of the site: fetching `A` parses to the entry
`e` with `e.id = B`; fetching `B` (the canonical page) parses to the same
`e`; every successfully fetched page reporting canonical id `B` shows the
same content `e`; no page reports canonical id `A` (it is an alias, not a
canonical id); and `e` survives a serialization round trip (which holds
for every entry the parser can build, by C5's amended theorem).

`AliasInv` is the inductive invariant over all reachable cache states. -/

/-- Occurrences of an id in the ghost insert log. -/
def countId (l : List EntryId) (i : EntryId) : Nat :=
  (l.filter (fun j => j = i)).length

theorem countId_append (l m : List EntryId) (i : EntryId) :
    countId (l ++ m) i = countId l i + countId m i := by
  unfold countId
  rw [List.filter_append, List.length_append]

theorem tblLookup_append_single {κ α : Type} [DecidableEq κ]
    (l : List (κ × α)) (k : κ) (v : α) (k' : κ) :
    tblLookup (l ++ [(k, v)]) k' =
      match tblLookup l k' with
      | some w => some w
      | none => if k = k' then some v else none := by
  induction l with
  | nil => simp [tblLookup]
  | cons q rest ih =>
    cases q with
    | mk qk qv =>
      by_cases hk : qk = k'
      · simp [tblLookup, hk]
      · simp only [List.cons_append, tblLookup, if_neg hk]
        exact ih

theorem tblLookup_filter_ne {κ α : Type} [DecidableEq κ]
    (l : List (κ × α)) (x k : κ) (hx : x ≠ k) :
    tblLookup (l.filter (fun p => p.1 ≠ x)) k = tblLookup l k := by
  induction l with
  | nil => rfl
  | cons q rest ih =>
    cases q with
    | mk qk qv =>
      by_cases hq : qk = x
      · subst hq
        simp only [List.filter_cons]
        rw [if_neg (by simp)]
        rw [ih, tblLookup, if_neg hx]
      · simp only [List.filter_cons]
        rw [if_pos (by simpa using hq)]
        by_cases hk : qk = k
        · simp [tblLookup, hk]
        · simp only [tblLookup, if_neg hk, ih]

/-- Two cache states agreeing on the `entries`, `redirects` and ghost-log
fields (the word/pronunciation indexes may differ). -/
def SameCore (db1 db2 : CacheDB) : Prop :=
  db1.entries = db2.entries ∧ db1.redirects = db2.redirects ∧
  db1.entryInsertLog = db2.entryInsertLog

theorem sameCore_insertWordRow (db : CacheDB) (w : String) (i : EntryId)
    (d : Option DefinitionId) : SameCore (insertWordRow db w i d) db := by
  unfold insertWordRow SameCore
  split <;> simp

theorem sameCore_insertPronRow (db : CacheDB) (p ty : String) (i : EntryId)
    (d : Option DefinitionId) : SameCore (insertPronRow db p ty i d) db := by
  unfold insertPronRow SameCore
  split <;> simp

theorem sameCore_trans {db1 db2 db3 : CacheDB} (h1 : SameCore db1 db2)
    (h2 : SameCore db2 db3) : SameCore db1 db3 :=
  ⟨h1.1.trans h2.1, h1.2.1.trans h2.2.1, h1.2.2.trans h2.2.2⟩

theorem sameCore_refl (db : CacheDB) : SameCore db db := ⟨rfl, rfl, rfl⟩

theorem sameCore_cache_entry (db : CacheDB) (ref : EntryRef) (e : DictionaryEntry) :
    SameCore (cache_entry db ref e) db := by
  unfold cache_entry
  refine sameCore_trans (sameCore_insertWordRow _ _ _ _) ?_
  induction e.pronounciations generalizing db with
  | nil => exact sameCore_refl db
  | cons p rest ih =>
    simp only [List.foldl_cons]
    exact sameCore_trans (ih _) (sameCore_insertPronRow _ _ _ _ _)

/-- The inductive invariant of the alias scenario over reachable cache
states: `B` has no redirect row; a redirect row for `A` can only point to
`B`; an `entries` row for `B` can only hold `e`'s serialization; `A`
never has an `entries` row; and the number of `entries` inserts ever
performed for `B` is exactly one when `B`'s row exists and zero before. -/
structure AliasInv (A B : EntryId) (e : DictionaryEntry) (st : FetcherState) : Prop where
  redB : tblLookup st.db.redirects B = none
  redA : ∀ r, tblLookup st.db.redirects A = some r → r = B
  entB : ∀ v, tblLookup st.db.entries B = some v → v = entryToJ e
  entA : tblLookup st.db.entries A = none
  logB : countId st.db.entryInsertLog B =
    (if (tblLookup st.db.entries B).isSome then 1 else 0)

theorem aliasInv_congr {A B : EntryId} {e : DictionaryEntry} {st st' : FetcherState}
    (h : AliasInv A B e st) (hc : SameCore st'.db st.db) : AliasInv A B e st' := by
  obtain ⟨h1, h2, h3⟩ := hc
  refine ⟨?_, ?_, ?_, ?_, ?_⟩
  · rw [h2]
    exact h.redB
  · rw [h2]
    exact h.redA
  · rw [h1]
    exact h.entB
  · rw [h1]
    exact h.entA
  · rw [h1, h3]
    exact h.logB

theorem aliasInv_initial (A B : EntryId) (e : DictionaryEntry) :
    AliasInv A B e initialState :=
  ⟨rfl, fun _ h => (nomatch h), fun _ h => (nomatch h), rfl, rfl⟩

theorem aliasInv_guard {A B : EntryId} {e : DictionaryEntry} {st : FetcherState}
    (h : AliasInv A B e st) (g : List (EntryId × DefinitionId)) :
    AliasInv A B e { st with guard := g } :=
  aliasInv_congr h ⟨rfl, rfl, rfl⟩

theorem superPronParts_pres {A B : EntryId} {e : DictionaryEntry} (recur : Recur)
    (hrec : ∀ i st, AliasInv A B e st → AliasInv A B e (recur i st).2)
    (name selfPron : String) :
    ∀ (comps : List Component) (st : FetcherState), AliasInv A B e st →
      AliasInv A B e (superPronParts recur name selfPron comps st).2 := by
  intro comps
  induction comps with
  | nil => intro st h; exact h
  | cons c rest ih =>
    intro st h
    simp only [superPronParts]
    split
    · split
      · rename_i parts st1 heq
        have hx := ih st h
        rw [heq] at hx
        exact hx
      · rename_i ex st1 heq
        have hx := ih st h
        rw [heq] at hx
        exact hx
    · split
      · exact h
      · rename_i r hm
        split
        · rename_i ex st1 heq
          have hx := hrec r.id st h
          rw [heq] at hx
          exact hx
        · rename_i ce st1 heq
          have hst1 : AliasInv A B e st1 := by
            have hx := hrec r.id st h
            rw [heq] at hx
            exact hx
          split
          · exact hst1
          · split
            · rename_i parts st2 heq2
              have hx := ih st1 hst1
              rw [heq2] at hx
              exact hx
            · rename_i ex st2 heq2
              have hx := ih st1 hst1
              rw [heq2] at hx
              exact hx

theorem get_super_entry_pronounciations_pres {A B : EntryId} {e : DictionaryEntry}
    (recur : Recur)
    (hrec : ∀ i st, AliasInv A B e st → AliasInv A B e (recur i st).2)
    (name selfPron : String) (comps : List Component) (st : FetcherState)
    (h : AliasInv A B e st) :
    AliasInv A B e (get_super_entry_pronounciations recur name selfPron comps st).2 := by
  unfold get_super_entry_pronounciations
  split
  · rename_i parts st1 heq
    have hx := superPronParts_pres recur hrec name selfPron comps st h
    rw [heq] at hx
    exact hx
  · rename_i ex st1 heq
    have hx := superPronParts_pres recur hrec name selfPron comps st h
    rw [heq] at hx
    exact hx

theorem superPronsMap_pres {A B : EntryId} {e : DictionaryEntry} (recur : Recur)
    (hrec : ∀ i st, AliasInv A B e st → AliasInv A B e (recur i st).2)
    (comps : List Component) :
    ∀ (prons : List (String × String)) (st : FetcherState), AliasInv A B e st →
      AliasInv A B e (superPronsMap recur comps prons st).2 := by
  intro prons
  induction prons with
  | nil => intro st h; exact h
  | cons p rest ih =>
    intro st h
    cases p with
    | mk name pron =>
      simp only [superPronsMap]
      split
      · rename_i ex st1 heq
        have hx := get_super_entry_pronounciations_pres recur hrec name pron comps st h
        rw [heq] at hx
        exact hx
      · rename_i v st1 heq
        have hst1 : AliasInv A B e st1 := by
          have hx := get_super_entry_pronounciations_pres recur hrec name pron comps st h
          rw [heq] at hx
          exact hx
        split
        · rename_i ex st2 heq2
          have hx := ih st1 hst1
          rw [heq2] at hx
          exact hx
        · rename_i tail st2 heq2
          have hx := ih st1 hst1
          rw [heq2] at hx
          exact hx

theorem get_super_entry_pres {A B : EntryId} {e : DictionaryEntry} (recur : Recur)
    (hrec : ∀ i st, AliasInv A B e st → AliasInv A B e (recur i st).2)
    (entry : DictionaryEntry) (did : DefinitionId) (st : FetcherState)
    (h : AliasInv A B e st) :
    AliasInv A B e (get_super_entry recur entry did st).2 := by
  unfold get_super_entry
  split
  · exact h
  · split
    · rename_i superW comps hsw hcm
      split
      · rename_i ex st1 heq
        have hx := superPronsMap_pres recur hrec comps entry.pronounciations st h
        rw [heq] at hx
        exact hx
      · rename_i prons st1 heq
        have hx := superPronsMap_pres recur hrec comps entry.pronounciations st h
        rw [heq] at hx
        exact hx
    · exact h

theorem norecurse_get_super_entry_pres {A B : EntryId} {e : DictionaryEntry}
    (recur : Recur)
    (hrec : ∀ i st, AliasInv A B e st → AliasInv A B e (recur i st).2)
    (entry : DictionaryEntry) (did : DefinitionId) (st : FetcherState)
    (h : AliasInv A B e st) :
    AliasInv A B e (norecurse_get_super_entry recur entry did st).2 := by
  unfold norecurse_get_super_entry norecurseCall
  split
  · exact h
  · have hpush := aliasInv_guard h ((entry.id, did) :: st.guard)
    split
    · rename_i r st2 heq
      have hx := get_super_entry_pres recur hrec entry did _ hpush
      rw [heq] at hx
      exact aliasInv_guard hx _
    · rename_i ex st2 heq
      have hx := get_super_entry_pres recur hrec entry did _ hpush
      rw [heq] at hx
      exact hx

theorem cacheSuperEntries_pres {A B : EntryId} {e : DictionaryEntry} (recur : Recur)
    (hrec : ∀ i st, AliasInv A B e st → AliasInv A B e (recur i st).2)
    (entry : DictionaryEntry) :
    ∀ (defs : List (DefinitionId × EntryDefinition)) (st : FetcherState),
      AliasInv A B e st → AliasInv A B e (cacheSuperEntries recur entry defs st).2 := by
  intro defs
  induction defs with
  | nil => intro st h; exact h
  | cons q rest ih =>
    intro st h
    cases q with
    | mk did d =>
      simp only [cacheSuperEntries]
      split
      · split
        · rename_i ex st1 heq
          have hx := norecurse_get_super_entry_pres recur hrec entry did st h
          rw [heq] at hx
          exact hx
        · rename_i se st1 heq
          have hst1 : AliasInv A B e st1 := by
            have hx := norecurse_get_super_entry_pres recur hrec entry did st h
            rw [heq] at hx
            exact hx
          refine ih _ (aliasInv_congr hst1 ?_)
          exact sameCore_cache_entry st1.db ⟨entry.id, some did⟩ se
      · exact ih st h

theorem insertRedirectRow_core (db : CacheDB) (i t : EntryId) :
    (insertRedirectRow db i t).entries = db.entries ∧
    (insertRedirectRow db i t).entryInsertLog = db.entryInsertLog := by
  unfold insertRedirectRow
  split <;> exact ⟨rfl, rfl⟩

theorem aliasInv_insertRedirect {A B : EntryId} {e : DictionaryEntry}
    (X t : EntryId) (hXB : X ≠ B) (ht : X = A → t = B)
    (st : FetcherState) (h : AliasInv A B e st) :
    AliasInv A B e { st with db := insertRedirectRow st.db X t } := by
  unfold insertRedirectRow
  split
  · exact aliasInv_congr h ⟨rfl, rfl, rfl⟩
  · refine ⟨?_, ?_, h.entB, h.entA, h.logB⟩
    · show tblLookup (st.db.redirects ++ [(X, t)]) B = none
      rw [tblLookup_append_single, h.redB]
      simp only [if_neg hXB]
    · intro r hr
      rw [show ({ st with db := { st.db with redirects := st.db.redirects ++ [(X, t)] } } :
          FetcherState).db.redirects = st.db.redirects ++ [(X, t)] from rfl,
        tblLookup_append_single] at hr
      revert hr
      cases hA' : tblLookup st.db.redirects A with
      | some w =>
        intro hr
        cases hr
        exact h.redA _ hA'
      | none =>
        by_cases hXA : X = A
        · rw [if_pos hXA]
          intro hr
          cases hr
          exact ht hXA
        · rw [if_neg hXA]
          intro hr
          cases hr

theorem aliasInv_insertEntryRow {A B : EntryId} {e : DictionaryEntry}
    (entry : DictionaryEntry) (hentry : entry.id = B → entry = e)
    (hnA : entry.id ≠ A) (st : FetcherState) (h : AliasInv A B e st) :
    AliasInv A B e { st with db := insertEntryRow st.db entry.id (entryToJ entry) } := by
  unfold insertEntryRow
  split
  · exact aliasInv_congr h ⟨rfl, rfl, rfl⟩
  · rename_i hfresh
    refine ⟨h.redB, h.redA, ?_, ?_, ?_⟩
    · intro v hv
      rw [show ({ st with db := { st.db with
            entries := st.db.entries ++ [(entry.id, entryToJ entry)],
            entryInsertLog := st.db.entryInsertLog ++ [entry.id] } } :
          FetcherState).db.entries = st.db.entries ++ [(entry.id, entryToJ entry)] from rfl,
        tblLookup_append_single] at hv
      revert hv
      cases hB' : tblLookup st.db.entries B with
      | some w =>
        intro hv
        cases hv
        exact h.entB _ hB'
      | none =>
        by_cases hEB : entry.id = B
        · rw [if_pos hEB]
          intro hv
          cases hv
          rw [hentry hEB]
        · rw [if_neg hEB]
          intro hv
          cases hv
    · show tblLookup (st.db.entries ++ [(entry.id, entryToJ entry)]) A = none
      rw [tblLookup_append_single, h.entA]
      simp only [if_neg hnA]
    · show countId (st.db.entryInsertLog ++ [entry.id]) B =
        if (tblLookup (st.db.entries ++ [(entry.id, entryToJ entry)]) B).isSome then 1 else 0
      rw [countId_append, tblLookup_append_single, h.logB]
      by_cases hEB : entry.id = B
      · have hBn : tblLookup st.db.entries B = none := by
          rw [← hEB]
          exact hfresh
        rw [hBn]
        simp [countId, hEB]
      · cases hB' : tblLookup st.db.entries B with
        | some w => simp [hB', countId, hEB]
        | none => simp [hB', countId, hEB, if_neg hEB]

theorem fetch_and_cache_pres {server : Server} {A B : EntryId} {e : DictionaryEntry}
    (hid : e.id = B)
    (hA : get_entry_net server A = .ok e) (hB : get_entry_net server B = .ok e)
    (hcoh : ∀ X e', get_entry_net server X = .ok e' → e'.id = B → e' = e)
    (hAnc : ∀ X e', get_entry_net server X = .ok e' → e'.id ≠ A)
    (recur : Recur)
    (hrec : ∀ i st, AliasInv A B e st → AliasInv A B e (recur i st).2)
    (X : EntryId) (st : FetcherState) (h : AliasInv A B e st) :
    AliasInv A B e (fetch_and_cache server recur X st).2 := by
  unfold fetch_and_cache
  split
  · exact h
  · rename_i entry hnet
    have hXB : X = B → entry = e := by
      intro hXB'
      rw [hXB'] at hnet
      rw [hnet] at hB
      cases hB
      rfl
    have hXA : X = A → entry = e := by
      intro hXA'
      rw [hXA'] at hnet
      rw [hnet] at hA
      cases hA
      rfl
    split
    · rename_i hskip
      refine aliasInv_insertRedirect X entry.id ?_ ?_ st h
      · intro hXB'
        exact hskip.1 (by rw [hXB hXB', hid, hXB'])
      · intro hXA'
        rw [hXA hXA', hid]
    · rename_i hnoskip
      have hst1 : AliasInv A B e { st with db := cache_entry (insertEntryRow st.db entry.id (entryToJ entry)) ⟨entry.id, none⟩ entry } := by
        refine aliasInv_congr (aliasInv_insertEntryRow entry
          (fun hEB => hcoh X entry hnet hEB) (hAnc X entry hnet) st h) ?_
        exact sameCore_cache_entry _ _ _
      split
      · rename_i ex st2 heq
        have hx := cacheSuperEntries_pres recur hrec entry entry.definitions _ hst1
        rw [heq] at hx
        exact hx
      · rename_i u st2 heq
        have hst2 : AliasInv A B e st2 := by
          have hx := cacheSuperEntries_pres recur hrec entry entry.definitions _ hst1
          rw [heq] at hx
          exact hx
        split
        · exact hst2
        · rename_i hne
          refine aliasInv_insertRedirect X entry.id ?_ ?_ st2 hst2
          · intro hXB'
            exact hne (by rw [hXB hXB', hid, hXB'])
          · intro hXA'
            rw [hXA hXA', hid]

theorem aliasInv_deleteEntry {A B : EntryId} {e : DictionaryEntry}
    (X : EntryId) (hXB : X ≠ B) (hXA : X ≠ A) (st : FetcherState)
    (h : AliasInv A B e st) :
    AliasInv A B e { st with db := deleteEntryRow st.db X } := by
  refine ⟨h.redB, h.redA, ?_, ?_, ?_⟩
  · intro v hv
    rw [show ({ st with db := deleteEntryRow st.db X } : FetcherState).db.entries =
        st.db.entries.filter (fun p => p.1 ≠ X) from rfl,
      tblLookup_filter_ne _ X B hXB] at hv
    exact h.entB v hv
  · show tblLookup (st.db.entries.filter (fun p => p.1 ≠ X)) A = none
    rw [tblLookup_filter_ne _ X A hXA]
    exact h.entA
  · show countId st.db.entryInsertLog B =
      if (tblLookup (st.db.entries.filter (fun p => p.1 ≠ X)) B).isSome then 1 else 0
    rw [tblLookup_filter_ne _ X B hXB]
    exact h.logB

theorem get_entry_step_pres {server : Server} {A B : EntryId} {e : DictionaryEntry}
    (hid : e.id = B)
    (hA : get_entry_net server A = .ok e) (hB : get_entry_net server B = .ok e)
    (hcoh : ∀ X e', get_entry_net server X = .ok e' → e'.id = B → e' = e)
    (hAnc : ∀ X e', get_entry_net server X = .ok e' → e'.id ≠ A)
    (hwf : entryFromJ (entryToJ e) = some e)
    (recur : Recur)
    (hrec : ∀ i st, AliasInv A B e st → AliasInv A B e (recur i st).2)
    (X : EntryId) (st : FetcherState) (h : AliasInv A B e st) :
    AliasInv A B e (get_entry_step server recur X st).2 := by
  unfold get_entry_step
  split
  · rename_i rid heq
    exact hrec rid st h
  · rename_i hred
    split
    · rename_i raw heqE
      split
      · exact h
      · rename_i hparse
        have hXB : X ≠ B := by
          rintro rfl
          rw [h.entB raw heqE] at hparse
          rw [hwf] at hparse
          cases hparse
        have hXA : X ≠ A := by
          rintro rfl
          rw [h.entA] at heqE
          cases heqE
        exact fetch_and_cache_pres hid hA hB hcoh hAnc recur hrec X _
          (aliasInv_deleteEntry X hXB hXA st h)
    · exact fetch_and_cache_pres hid hA hB hcoh hAnc recur hrec X st h

theorem get_entry_pres {server : Server} {A B : EntryId} {e : DictionaryEntry}
    (hid : e.id = B)
    (hA : get_entry_net server A = .ok e) (hB : get_entry_net server B = .ok e)
    (hcoh : ∀ X e', get_entry_net server X = .ok e' → e'.id = B → e' = e)
    (hAnc : ∀ X e', get_entry_net server X = .ok e' → e'.id ≠ A)
    (hwf : entryFromJ (entryToJ e) = some e) :
    ∀ (f : Nat) (X : EntryId) (st : FetcherState), AliasInv A B e st →
      AliasInv A B e (get_entry server f X st).2 := by
  intro f
  induction f with
  | zero => intro X st h; exact h
  | succ f ih =>
    intro X st h
    exact get_entry_step_pres hid hA hB hcoh hAnc hwf (get_entry server f) ih X st h

theorem runCalls_pres {server : Server} {A B : EntryId} {e : DictionaryEntry}
    (hid : e.id = B)
    (hA : get_entry_net server A = .ok e) (hB : get_entry_net server B = .ok e)
    (hcoh : ∀ X e', get_entry_net server X = .ok e' → e'.id = B → e' = e)
    (hAnc : ∀ X e', get_entry_net server X = .ok e' → e'.id ≠ A)
    (hwf : entryFromJ (entryToJ e) = some e) (fuel : Nat) :
    ∀ (calls : List EntryId) (st : FetcherState), AliasInv A B e st →
      AliasInv A B e (runCalls server fuel calls st) := by
  intro calls
  induction calls with
  | nil => intro st h; exact h
  | cons i rest ih =>
    intro st h
    exact ih _ (get_entry_pres hid hA hB hcoh hAnc hwf fuel i st h)

theorem alias_value {server : Server} {A B : EntryId} {e : DictionaryEntry}
    (hA : get_entry_net server A = .ok e) (hB : get_entry_net server B = .ok e)
    (hwf : entryFromJ (entryToJ e) = some e) :
    ∀ (f : Nat) (X : EntryId), (X = A ∨ X = B) → ∀ (st : FetcherState),
      AliasInv A B e st → ∀ r, (get_entry server f X st).1 = .ok r → r = e := by
  intro f
  induction f with
  | zero =>
    intro X _ st _ r hr
    exact (nomatch hr)
  | succ f ih =>
    intro X hX st h r hr
    have hr' : (get_entry_step server (get_entry server f) X st).1 = .ok r := hr
    unfold get_entry_step at hr'
    split at hr'
    · rename_i rid heq
      cases hX with
      | inl hXA =>
        subst hXA
        have hrB : rid = B := h.redA rid heq
        subst hrB
        exact ih rid (Or.inr rfl) st h r hr'
      | inr hXB =>
        subst hXB
        rw [h.redB] at heq
        cases heq
    · rename_i hred
      split at hr'
      · rename_i raw heqE
        split at hr'
        · rename_i e' hparse
          cases hX with
          | inl hXA =>
            subst hXA
            rw [h.entA] at heqE
            cases heqE
          | inr hXB =>
            subst hXB
            have hraw : raw = entryToJ e := h.entB raw heqE
            rw [hraw, hwf] at hparse
            exact (Except.ok.inj hr').symm.trans (Option.some.inj hparse).symm
        · rename_i hparse
          cases hX with
          | inl hXA =>
            subst hXA
            rw [h.entA] at heqE
            cases heqE
          | inr hXB =>
            subst hXB
            have hraw : raw = entryToJ e := h.entB raw heqE
            rw [hraw, hwf] at hparse
            cases hparse
      · rename_i hent
        have hnet : get_entry_net server X = .ok e := by
          cases hX with
          | inl hXA => subst hXA; exact hA
          | inr hXB => subst hXB; exact hB
        unfold fetch_and_cache at hr'
        split at hr'
        · rename_i e1 hne
          rw [hnet] at hne
          exact Except.noConfusion hne
        · rename_i entry hne
          rw [hnet] at hne
          have hentry : e = entry := Except.ok.inj hne
          subst hentry
          split at hr'
          · exact (Except.ok.inj hr').symm
          · split at hr'
            · exact Except.noConfusion hr'
            · rename_i st2 hcs
              split at hr' <;> exact (Except.ok.inj hr').symm

theorem alias_cached_step {server : Server} {A B : EntryId} {e : DictionaryEntry}
    (hAB : A ≠ B) (hid : e.id = B)
    (hA : get_entry_net server A = .ok e)
    (f : Nat) (st : FetcherState) (h : AliasInv A B e st)
    (raw : JVal) (hBrow : tblLookup st.db.entries B = some raw)
    (hAred : tblLookup st.db.redirects A = none) :
    get_entry server (f + 1) A st =
      (.ok e, { st with db := insertRedirectRow st.db A B }) := by
  show get_entry_step server (get_entry server f) A st = _
  have hcond : e.id ≠ A ∧ (tblLookup st.db.entries e.id).isSome = true := by
    constructor
    · intro hc
      exact hAB (hc.symm.trans hid)
    · rw [hid, hBrow]
      rfl
  simp only [get_entry_step, hAred, h.entA, fetch_and_cache, hA, if_pos hcond, hid]
  rw [if_pos ⟨fun hBA => hAB hBA.symm, by rw [hBrow]; rfl⟩]

/-- C1: alias closure.  For an alias id `A` whose fetched page reports the
canonical id `B ≠ A` with content `e` (the same content every fetch of the
canonical page reports, `A` being no page's canonical id), after any
sequence of `get_entry` calls run from a fresh cache: (i) whenever
`get_entry A` and `get_entry B` both return successfully, they return
equal `DictionaryEntry` values (both equal to `e`); (ii) at most one row
was ever inserted into the `entries` table for `B` over the whole
sequence (the ghost insert log counts every attempted `INSERT` that
succeeded); and (iii) when the canonical entry is already cached and `A`
has no redirect row yet, `get_entry A` returns `e` and records only the
redirect row `A -> B` — no new entry row, no other change. -/
theorem c1_alias_closure {server : Server} {A B : EntryId} {e : DictionaryEntry}
    (hAB : A ≠ B) (hid : e.id = B)
    (hA : get_entry_net server A = .ok e) (hB : get_entry_net server B = .ok e)
    (hcoh : ∀ X e', get_entry_net server X = .ok e' → e'.id = B → e' = e)
    (hAnc : ∀ X e', get_entry_net server X = .ok e' → e'.id ≠ A)
    (hwf : entryFromJ (entryToJ e) = some e)
    (calls : List EntryId) (fuel : Nat) :
    (∀ f1 f2 r1 r2,
        (get_entry server f1 A (runCalls server fuel calls initialState)).1 = .ok r1 →
        (get_entry server f2 B (runCalls server fuel calls initialState)).1 = .ok r2 →
        r1 = r2 ∧ r1 = e) ∧
    countId (runCalls server fuel calls initialState).db.entryInsertLog B ≤ 1 ∧
    (∀ raw f,
        tblLookup (runCalls server fuel calls initialState).db.entries B = some raw →
        tblLookup (runCalls server fuel calls initialState).db.redirects A = none →
        get_entry server (f + 1) A (runCalls server fuel calls initialState) =
          (.ok e, { runCalls server fuel calls initialState with
            db := insertRedirectRow (runCalls server fuel calls initialState).db A B })) := by
  have hInv : AliasInv A B e (runCalls server fuel calls initialState) :=
    runCalls_pres hid hA hB hcoh hAnc hwf fuel calls initialState (aliasInv_initial A B e)
  refine ⟨?_, ?_, ?_⟩
  · intro f1 f2 r1 r2 h1 h2
    have e1 := alias_value hA hB hwf f1 A (Or.inl rfl) _ hInv r1 h1
    have e2 := alias_value hA hB hwf f2 B (Or.inr rfl) _ hInv r2 h2
    exact ⟨e1.trans e2.symm, e1⟩
  · rw [hInv.logB]
    split <;> omega
  · intro raw f hBrow hAred
    exact alias_cached_step hAB hid hA f _ hInv raw hBrow hAred

/-- Concrete alias scenario: the sole definition of the canonical entry. -/
def c1Defn : EntryDefinition :=
  { id := "#", definition := "crow", classes := ["noun"] }

/-- Concrete alias scenario: the canonical entry, with id 2. -/
def c1E : DictionaryEntry :=
  { id := 2, entry := "กา", pronounciations := [("Paiboon", "gaa")],
    definitions := [("#", c1Defn)], sound_url := none }

/-- Concrete alias scenario: ids 1 and 2 both serve the canonical
entry's page (so 1 is an alias of 2); every other id is a 404. -/
def c1Server : Server := fun X =>
  if X = 1 ∨ X = 2 then ⟨200, some c1E⟩ else ⟨404, none⟩

theorem c1_alias_closure_witness :
    (1 : EntryId) ≠ 2 ∧ c1E.id = 2 ∧
    (get_entry c1Server 3 1 (runCalls c1Server 3 [2] initialState)).1 = .ok c1E ∧
    (get_entry c1Server 3 2 (runCalls c1Server 3 [2] initialState)).1 = .ok c1E ∧
    countId (runCalls c1Server 3 [2] initialState).db.entryInsertLog 2 ≤ 1 ∧
    get_entry c1Server 3 1 (runCalls c1Server 3 [2] initialState) =
      (.ok c1E, { runCalls c1Server 3 [2] initialState with
        db := insertRedirectRow (runCalls c1Server 3 [2] initialState).db 1 2 }) := by
  have H := @c1_alias_closure c1Server 1 2 c1E (by decide) rfl rfl rfl
    (fun X e' hx _ => by
      by_cases hX : X = 1 ∨ X = 2
      · simp [get_entry_net, c1Server, hX] at hx
        exact hx.symm
      · simp [get_entry_net, c1Server, hX] at hx)
    (fun X e' hx => by
      by_cases hX : X = 1 ∨ X = 2
      · simp [get_entry_net, c1Server, hX] at hx
        rw [hx.symm]
        decide
      · simp [get_entry_net, c1Server, hX] at hx)
    rfl [2] 3
  exact ⟨by decide, rfl, by rfl, by rfl, H.2.1,
    H.2.2 (entryToJ c1E) 2 (by rfl) (by decide)⟩
